import Mathlib

/-!
Shallow embedding of the ParadoxModPatcher merge core.

Text is modelled as `Str := List Char`.  Python strings become `Str`, Python
lists become `List`, Python dicts become insertion-ordered association lists
(`upsertA` mirrors `d[k] = v`, which replaces in place and otherwise appends).
Loops with non-structural index jumps are written with an explicit `fuel`
parameter (always called with `length + 1`, which bounds the iteration count
of the corresponding Python loop); all definitions are plain structural
recursions so that concrete instances evaluate inside the kernel.

Sources embedded here:
  src/core/paradox_rules.py      (rule book + StructureValidator)
  src/core/structural_merger.py  (StructuralMerger)
  src/core/pdx_parser.py         (PdxParser.parse / PdxSerializer)
  src/core/smart_patch_generator.py (per-file orchestration branch)
-/

abbrev Str := List Char

def st (s : String) : Str := s.data

/-- Python str.strip default whitespace set (ASCII). -/
def isPyWs (c : Char) : Bool :=
  c == ' ' || c == '\t' || c == '\n' || c == '\r' || c == '\x0b' || c == '\x0c'

def isLowerC (c : Char) : Bool := 97 ≤ c.toNat && c.toNat ≤ 122

def isUpperC (c : Char) : Bool := 65 ≤ c.toNat && c.toNat ≤ 90

def isDigitC (c : Char) : Bool := 48 ≤ c.toNat && c.toNat ≤ 57

/-- Character class `[a-zA-Z0-9_]`. -/
def isAlnumU (c : Char) : Bool := isLowerC c || isUpperC c || isDigitC c || c == '_'

/-- Character class `[a-z_]`. -/
def isLowerU (c : Char) : Bool := isLowerC c || c == '_'

/-- Character class `[a-zA-Z0-9_\.:]` (identifier tail in the merger regexes). -/
def isIdentTail (c : Char) : Bool := isAlnumU c || c == '.' || c == ':'

def lstripWs (s : Str) : Str := s.dropWhile isPyWs

def rstripWs (s : Str) : Str := (s.reverse.dropWhile isPyWs).reverse

def stripWs (s : Str) : Str := rstripWs (lstripWs s)

/-- Python `rstrip('\r\n')`. -/
def rstripCRLF (s : Str) : Str := (s.reverse.dropWhile (fun c => c == '\r' || c == '\n')).reverse

/-- Python `content.replace('\r\n', '\n')`. -/
def replCRLF : Str → Str
  | [] => []
  | '\r' :: '\n' :: t => '\n' :: replCRLF t
  | c :: t => c :: replCRLF t

/-- Python `content.replace('\r\n', '\n').replace('\r', '\n')` (pdx parser variant). -/
def replCRall (s : Str) : Str := (replCRLF s).map (fun c => if c == '\r' then '\n' else c)

def splitLines : Str → List Str
  | [] => [[]]
  | c :: t =>
    match splitLines t with
    | [] => [[]]
    | l :: ls => if c = '\n' then [] :: l :: ls else (c :: l) :: ls

def joinSep (sep : Str) (ls : List Str) : Str := List.intercalate sep ls

def joinNL (ls : List Str) : Str := joinSep [Char.ofNat 10] ls

def joinSp (ls : List Str) : Str := joinSep [' '] ls

def startsWithS (s p : Str) : Bool := p.isPrefixOf s

def endsWithS (s p : Str) : Bool := p.isSuffixOf s

def findSubAux (pat : Str) : Str → Nat → Option Nat
  | [], i => if pat.isEmpty then some i else none
  | c :: t, i => if pat.isPrefixOf (c :: t) then some i else findSubAux pat t (i + 1)

/-- Python `hay.find(pat)` (None instead of -1). -/
def findSub (hay pat : Str) : Option Nat := findSubAux pat hay 0

def containsSub (hay pat : Str) : Bool := (findSub hay pat).isSome

/-- Python `s.replace(old, new, 1)`. -/
def replaceFirst (s old new : Str) : Str :=
  match findSub s old with
  | none => s
  | some i => s.take i ++ new ++ s.drop (i + old.length)

def findChar (s : Str) (c : Char) : Option Nat := s.findIdx? (fun x => x == c)

/-- Python `s.rfind(c)` (None instead of -1). -/
def rfindChar (s : Str) (c : Char) : Option Nat :=
  match (s.reverse.findIdx? (fun x => x == c)) with
  | none => none
  | some i => some (s.length - 1 - i)

def toLowerS (s : Str) : Str := s.map Char.toLower

def replaceChar (s : Str) (a b : Char) : Str := s.map (fun c => if c == a then b else c)

def tabs (n : Nat) : Str := List.replicate n '\t'

def fcsAux : Str → Bool → Nat → Char → Option Nat
  | [], _, _, _ => none
  | c :: t, inQ, i, prev =>
    if c == '"' && (i == 0 || prev != '\\') then fcsAux t (!inQ) (i + 1) c
    else if c == '#' && !inQ then some i
    else fcsAux t inQ (i + 1) c

/-- Embeds `_find_comment_start` / `_find_comment_pos` / `_find_comment`
(the same quote-aware scan appears in structural_merger.py, pdx_parser.py and
paradox_rules.py): position of the first `#` outside double quotes, where a
quote toggles unless preceded by a backslash. -/
def find_comment_start (line : Str) : Option Nat := fcsAux line false 0 ' '

/-- The cut `line = line[:hash_pos]` that every caller performs after
`find_comment_start` (a missing hash leaves the line unchanged). -/
def cutComment (line : Str) : Str :=
  match find_comment_start line with
  | some i => line.take i
  | none => line

def lookupA {α : Type} : List (Str × α) → Str → Option α
  | [], _ => none
  | (k, v) :: t, key => if k = key then some v else lookupA t key

/-- Python `d[k] = v` on an insertion-ordered dict. -/
def upsertA {α : Type} : List (Str × α) → Str → α → List (Str × α)
  | [], k, v => [(k, v)]
  | (k', v') :: t, k, v => if k' = k then (k, v) :: t else (k', v') :: upsertA t k v

/-- Python `d.setdefault(k, []).append(v)` pattern used for `all_changes`. -/
def appendEntryA {α : Type} : List (Str × List α) → Str → α → List (Str × List α)
  | [], k, v => [(k, [v])]
  | (k', vs) :: t, k, v => if k' = k then (k', vs ++ [v]) :: t else (k', vs) :: appendEntryA t k v

/-! Rule book: src/core/paradox_rules.py -/

inductive MergeStrategy where
  | ACCUMULATE_LIST | REPLACE_WHOLE | RECURSIVE | KEEP_BASE
deriving DecidableEq, Repr

inductive TopLevelStrategy where
  | ATOMIC_ACCUMULATE | MERGEABLE_CONTAINER
deriving DecidableEq, Repr

def SAFE_LIST_BLOCKS : List Str :=
  [st "on_actions", st "events", st "random_events", st "random_on_actions", st "first_valid"]

def NO_MERGE_BLOCKS : List Str :=
  [st "trigger", st "limit", st "effect", st "immediate", st "after", st "on_trigger_fail",
   st "modifier", st "ai_will_do", st "ai_check_interval", st "ai_chance", st "weight",
   st "weight_multiplier", st "compare_modifier", st "opinion_modifier", st "mult",
   st "add", st "factor",
   st "option", st "desc", st "title", st "theme", st "override_background",
   st "left_portrait", st "right_portrait", st "lower_left_portrait",
   st "lower_center_portrait", st "lower_right_portrait", st "artifact",
   st "override_icon", st "cooldown",
   st "is_shown", st "is_valid", st "is_valid_showing_failures_only", st "cost",
   st "minimum_cost", st "confirm_text", st "selection_tooltip",
   st "can_send", st "can_be_picked", st "is_highlighted", st "on_accept",
   st "on_decline", st "on_send", st "on_auto_accept", st "reply_item",
   st "send_option", st "greeting", st "notification_text",
   st "on_ready", st "on_monthly", st "on_invalidated",
   st "on_start", st "on_complete", st "on_enter_location", st "on_leave_location",
   st "phases",
   st "window", st "widget", st "container", st "vbox", st "hbox", st "button",
   st "text", st "icon", st "portrait", st "scrollarea", st "flowcontainer",
   st "scripted_trigger", st "scripted_effect",
   st "trait", st "culture", st "culture_group", st "heritage", st "tradition",
   st "religion", st "faith", st "doctrine", st "dynasty", st "house",
   st "character", st "province", st "holding", st "building", st "men_at_arms",
   st "innovation", st "law", st "lifestyle", st "perk", st "focus"]

def CONTAINER_BLOCKS : List Str :=
  [st "on_game_start", st "on_game_start_after_lobby",
   st "on_birth", st "on_birth_child", st "on_birth_mother", st "on_birth_father",
   st "on_birth_real_father",
   st "on_death", st "on_natural_death_second_chance",
   st "on_join_court", st "on_leave_court",
   st "on_imprison", st "on_release_from_prison",
   st "on_marriage", st "on_divorce", st "on_concubinage",
   st "on_character_faith_change", st "on_faith_created", st "on_faith_conversion",
   st "on_character_culture_change",
   st "on_war_started", st "on_war_ended", st "on_war_won", st "on_war_lost",
   st "on_war_white_peace",
   st "on_title_gain", st "on_title_lost", st "on_title_destroyed",
   st "on_realm_capital_change",
   st "on_county_faith_change", st "on_county_culture_change",
   st "on_yearly_pulse", st "on_monthly_pulse", st "on_weekly_pulse",
   st "on_quarterly_pulse",
   st "five_year_playable_pulse", st "three_year_playable_pulse",
   st "yearly_playable_pulse",
   st "random_yearly_playable_pulse", st "random_yearly_everyone_pulse",
   st "on_prestige_gained", st "on_piety_gained", st "on_gold_gained",
   st "on_army_enter_province",
   st "on_siege_completion", st "on_siege_great_success", st "on_siege_looting",
   st "on_artifact_created", st "on_artifact_destroyed", st "on_artifact_changed_owner",
   st "on_holy_order_founded", st "on_holy_order_destroyed",
   st "on_dynasty_created", st "on_house_created"]

def ATOMIC_FILE_CONTEXTS : List Str :=
  [st "decisions", st "events", st "character_interactions", st "schemes", st "activities"]

def RECURSIVE_FILE_CONTEXTS : List Str :=
  [st "on_action", st "scripted_effects"]

/-- Regex `^[a-z_]+\.\d+$` (is_event_block). -/
def is_event_block (s : Str) : Bool :=
  let a := s.takeWhile isLowerU
  let r := s.drop a.length
  decide (a ≠ []) &&
    match r with
    | '.' :: ds => decide (ds ≠ []) && ds.all isDigitC
    | _ => false

/-- Regex `^\d+\.\d+\.\d+$` (is_date_block). -/
def is_date_block (s : Str) : Bool :=
  let d1 := s.takeWhile isDigitC
  match s.drop d1.length with
  | '.' :: r2 =>
    let d2 := r2.takeWhile isDigitC
    (match r2.drop d2.length with
     | '.' :: r4 => decide (d1 ≠ []) && decide (d2 ≠ []) && decide (r4 ≠ []) && r4.all isDigitC
     | _ => false)
  | _ => false

/-- Regex `^\d+$` (the province_id pattern of BLOCK_PATTERNS). -/
def isAllDigits (s : Str) : Bool := decide (s ≠ []) && s.all isDigitC

/-- Helper for the iterator patterns `^every_[a-z_]+$` etc. -/
def iterPat (s : Str) (p : String) : Bool :=
  startsWithS s (st p) &&
    (let sfx := s.drop (st p).length
     decide (sfx ≠ []) && sfx.all isLowerU)

def is_iterator_block (name : Str) : Bool :=
  if SAFE_LIST_BLOCKS.contains name then false
  else iterPat name "every_" || iterPat name "random_" || iterPat name "ordered_" ||
       iterPat name "any_"

def is_on_action_container (name : Str) : Bool :=
  (startsWithS name (st "on_") && decide (name ≠ st "on_actions")) ||
  containsSub name (st "_pulse") || containsSub name (st "_playable_pulse")

def is_scripted_effect_container (name : Str) : Bool :=
  endsWithS name (st "_effect") || endsWithS name (st "_effects") ||
  startsWithS name (st "fire_") || startsWithS name (st "setup_") ||
  startsWithS name (st "initialize_") || startsWithS name (st "init_") ||
  containsSub name (st "_intro_") || containsSub name (st "_gamestart_") ||
  containsSub name (st "_setup_") || containsSub name (st "_spawn_")

def guiContainerNames : List Str :=
  [st "character_view_bg", st "character_location_exterior",
   st "character_religion_interior", st "religion_interior", st "religion_holding",
   st "title_holding", st "artifact_regional_pattern", st "character_private",
   st "culture_levy_big_illustration", st "culture_knight_big_illustration",
   st "culture_levy_small_illustration", st "culture_knight_small_illustration"]

def is_gui_background_container (name : Str) : Bool :=
  guiContainerNames.contains name ||
  endsWithS name (st "_bg") || endsWithS name (st "_illustration") ||
  endsWithS name (st "_interior") || endsWithS name (st "_exterior") ||
  endsWithS name (st "_pattern")

/-- One clause of get_file_context: `f'/{c}/' in p or p.startswith(c + '/') or f'/{c}' in p`. -/
def ctxMatch (p ctx : Str) : Bool :=
  containsSub p ('/' :: ctx ++ [Char.ofNat 47]) || startsWithS p (ctx ++ [Char.ofNat 47]) ||
  containsSub p ('/' :: ctx)

def get_file_context (file_path : Str) : Str :=
  if file_path = [] then st "unknown"
  else
    let p := replaceChar (toLowerS file_path) '\\' '/'
    if RECURSIVE_FILE_CONTEXTS.any (ctxMatch p) then st "recursive"
    else if ATOMIC_FILE_CONTEXTS.any (ctxMatch p) then st "atomic"
    else st "unknown"

def get_top_level_strategy (block_name : Str) (file_path : Str) : TopLevelStrategy :=
  if is_event_block block_name then .ATOMIC_ACCUMULATE
  else if is_date_block block_name then .ATOMIC_ACCUMULATE
  else
    let file_context := get_file_context file_path
    if file_context = st "atomic" then .ATOMIC_ACCUMULATE
    else if file_context = st "recursive" then .MERGEABLE_CONTAINER
    else if is_on_action_container block_name then .MERGEABLE_CONTAINER
    else if is_scripted_effect_container block_name then .MERGEABLE_CONTAINER
    else if is_gui_background_container block_name then .MERGEABLE_CONTAINER
    else .ATOMIC_ACCUMULATE

/-- Embeds get_merge_strategy.  The BLOCK_PATTERNS dict is probed in insertion
order (event, province_id, date_block, title); the title branch has no action
in the source, so it is omitted here. -/
def get_merge_strategy (block_name : Str) (parent_name : Str) : MergeStrategy :=
  if is_event_block block_name then .REPLACE_WHOLE
  else if isAllDigits block_name then .REPLACE_WHOLE
  else if is_date_block block_name then .REPLACE_WHOLE
  else if is_iterator_block block_name then .REPLACE_WHOLE
  else if SAFE_LIST_BLOCKS.contains block_name then .ACCUMULATE_LIST
  else if NO_MERGE_BLOCKS.contains block_name then .REPLACE_WHOLE
  else if CONTAINER_BLOCKS.contains block_name then .RECURSIVE
  else if is_on_action_container block_name then .RECURSIVE
  else if is_scripted_effect_container block_name then .RECURSIVE
  else if is_gui_background_container block_name then .RECURSIVE
  else .REPLACE_WHOLE

def is_safe_to_accumulate (block_name : Str) (parent_name : Str) : Bool :=
  get_merge_strategy block_name parent_name = .ACCUMULATE_LIST

def is_safe_to_add_child (child_name : Str) (parent_name : Str) : Bool :=
  if is_scripted_effect_container parent_name then true
  else if is_on_action_container parent_name then true
  else if is_gui_background_container parent_name then true
  else
    let strategy := get_merge_strategy child_name parent_name
    strategy = .ACCUMULATE_LIST || strategy = .RECURSIVE

/-! Validator: StructureValidator in src/core/paradox_rules.py -/

structure ValidationError where
  path : Str
  message : Str
  severity : Str
deriving DecidableEq, Repr

/-- Per-line brace tally with comments stripped, shared by
StructureValidator._validate_braces and StructuralMerger._count_braces. -/
def count_braces (content : Str) : Nat × Nat :=
  (splitLines content).foldl
    (fun acc line =>
      let l := cutComment line
      (acc.1 + l.count '{', acc.2 + l.count '}'))
    (0, 0)

def validate_braces (content : Str) : Bool :=
  (count_braces content).1 == (count_braces content).2

/-- Match of the MULTILINE-anchored duplicate-block pattern
`^([a-zA-Z0-9_][a-zA-Z0-9_\.]*)\s*=\s*\{` at the current position; returns
the captured name and the text after the opening brace. -/
def matchTopBlockAt : Str → Option (Str × Str)
  | [] => none
  | c :: t =>
    if isAlnumU c then
      let tl := t.takeWhile (fun x => isAlnumU x || x == '.')
      let rest := (t.drop tl.length).dropWhile isPyWs
      match rest with
      | '=' :: r3 =>
        (match r3.dropWhile isPyWs with
         | '{' :: r5 => some (c :: tl, r5)
         | _ => none)
      | _ => none
    else none

/-- Scan of re.findall over the content: the pattern may only start at a line
start, and scanning resumes after each (non-overlapping) match. -/
def dupScan : Nat → Str → Bool → List Str
  | 0, _, _ => []
  | _ + 1, [], _ => []
  | fuel + 1, c :: t, atStart =>
    if atStart then
      match matchTopBlockAt (c :: t) with
      | some (name, rest) => name :: dupScan fuel rest false
      | none => dupScan fuel t (c == '\n')
    else dupScan fuel t (c == '\n')

def topBlockNames (content : Str) : List Str :=
  dupScan (content.length + 1) content true

/-- Embeds _check_duplicate_blocks (the Russian message is rendered in
ASCII). -/
def check_duplicate_blocks (content filename : Str) : List ValidationError :=
  let seen := (topBlockNames content).foldl
    (fun d n =>
      match lookupA d n with
      | some k => upsertA d n (k + 1)
      | none => upsertA d n 1) []
  seen.foldl
    (fun errs p =>
      if p.2 > 1 && is_event_block p.1 then
        errs ++ [⟨filename ++ '.' :: p.1, st "duplicate event block " ++ p.1, st "error"⟩]
      else errs) []

/-- Match of the unanchored event pattern `([a-z_]+\.\d+)\s*=\s*\{`; returns
the captured event id and the text after the opening brace. -/
def matchEventAt (s : Str) : Option (Str × Str) :=
  let a := s.takeWhile isLowerU
  if a.isEmpty then none
  else
    match s.drop a.length with
    | '.' :: r2 =>
      let ds := r2.takeWhile isDigitC
      if ds.isEmpty then none
      else
        (match (r2.drop ds.length).dropWhile isPyWs with
         | '=' :: r3 =>
           (match r3.dropWhile isPyWs with
            | '{' :: r5 => some (a ++ '.' :: ds, r5)
            | _ => none)
         | _ => none)
    | _ => none

/-- Index of the character closing the event body: depth starts at 1 and is
updated on every brace (comments are not stripped here, matching the
source). -/
def findCloseIdx : Str → Int → Option Nat
  | [], _ => none
  | c :: t, depth =>
    let d := if c = '{' then depth + 1 else if c = '}' then depth - 1 else depth
    if d = 0 then some 0
    else
      match findCloseIdx t d with
      | some i => some (i + 1)
      | none => none

/-- The event body `content[start:end]` (empty when the block never closes,
as in the source where `end` stays at `start`). -/
def eventBody (s : Str) : Str :=
  match findCloseIdx s 1 with
  | some i => s.take i
  | none => []

/-- Match of `\boption\s*=\s*\{` at the current position (the word boundary
is checked by the caller). -/
def matchOptionAt (s : Str) : Option Str :=
  if startsWithS s (st "option") then
    match (s.drop 6).dropWhile isPyWs with
    | '=' :: r =>
      (match r.dropWhile isPyWs with
       | '{' :: r2 => some r2
       | _ => none)
    | _ => none
  else none

def optScan : Nat → Str → Bool → Nat
  | 0, _, _ => 0
  | _ + 1, [], _ => 0
  | fuel + 1, c :: t, prevWord =>
    if !prevWord then
      match matchOptionAt (c :: t) with
      | some rest => 1 + optScan fuel rest false
      | none => optScan fuel t (isAlnumU c)
    else optScan fuel t (isAlnumU c)

def countOptions (s : Str) : Nat := optScan (s.length + 1) s false

/-- One step of the _validate_events finditer loop: emitted warnings from the
current position onward. -/
def eventWarnScan (filename : Str) : Nat → Str → List ValidationError
  | 0, _ => []
  | _ + 1, [] => []
  | fuel + 1, c :: t =>
    match matchEventAt (c :: t) with
    | some (name, rest) =>
      let body := eventBody rest
      let n := countOptions body
      (if n > 20 then
        [⟨filename ++ '.' :: name,
          st "suspiciously many option blocks - possible merge error", st "warning"⟩]
       else []) ++ eventWarnScan filename fuel rest
    | none => eventWarnScan filename fuel t

/-- Embeds _validate_events. -/
def validate_events (content filename : Str) : List ValidationError :=
  eventWarnScan filename (content.length + 1) content

/-- Embeds StructureValidator.validate: returns `(is_valid, errors ++ warnings)`.
The brace message is the source's Russian text rendered in ASCII. -/
def validator_validate (content : Str) (filename : Str) : Bool × List ValidationError :=
  let errors :=
    (if validate_braces content then []
     else [⟨filename, st "unbalanced braces", st "error"⟩]) ++
    check_duplicate_blocks content filename
  let warnings :=
    if containsSub filename (st "events") || endsWithS filename (st "_events.txt") then
      validate_events content filename
    else []
  (errors.isEmpty, errors ++ warnings)

/-! Structural merger: src/core/structural_merger.py -/

inductive ParsedBlock where
  | mk (name : Str) (full_text : Str) (inner_text : Str) (start_line : Nat) (end_line : Nat)
       (indent : Str) (is_commented : Bool) (children : List (Str × List ParsedBlock))
       (list_items : List Str) (properties : List (Str × Str))

def ParsedBlock.name : ParsedBlock → Str
  | .mk v _ _ _ _ _ _ _ _ _ => v

def ParsedBlock.full_text : ParsedBlock → Str
  | .mk _ v _ _ _ _ _ _ _ _ => v

def ParsedBlock.inner_text : ParsedBlock → Str
  | .mk _ _ v _ _ _ _ _ _ _ => v

def ParsedBlock.start_line : ParsedBlock → Nat
  | .mk _ _ _ v _ _ _ _ _ _ => v

def ParsedBlock.end_line : ParsedBlock → Nat
  | .mk _ _ _ _ v _ _ _ _ _ => v

def ParsedBlock.indent : ParsedBlock → Str
  | .mk _ _ _ _ _ v _ _ _ _ => v

def ParsedBlock.is_commented : ParsedBlock → Bool
  | .mk _ _ _ _ _ _ v _ _ _ => v

def ParsedBlock.children : ParsedBlock → List (Str × List ParsedBlock)
  | .mk _ _ _ _ _ _ _ v _ _ => v

def ParsedBlock.list_items : ParsedBlock → List Str
  | .mk _ _ _ _ _ _ _ _ v _ => v

def ParsedBlock.properties : ParsedBlock → List (Str × Str)
  | .mk _ _ _ _ _ _ _ _ _ v => v

instance : Inhabited ParsedBlock := ⟨.mk [] [] [] 0 0 [] false [] [] []⟩

def ParsedBlock.setListItems : ParsedBlock → List Str → ParsedBlock
  | .mk n f i s e ind c ch _ pr, li => .mk n f i s e ind c ch li pr

def ParsedBlock.setProperties : ParsedBlock → List (Str × Str) → ParsedBlock
  | .mk n f i s e ind c ch li _, pr => .mk n f i s e ind c ch li pr

/-- Embeds ParsedBlock.add_child (group children by name, keep all). -/
def ParsedBlock.addChild : ParsedBlock → ParsedBlock → ParsedBlock
  | .mk n f i s e ind c ch li pr, child => .mk n f i s e ind c (appendEntryA ch child.name child) li pr

/-- Embeds ParsedBlock.get_all_children. -/
def getAllChildren (b : ParsedBlock) (name : Str) : List ParsedBlock :=
  (lookupA b.children name).getD []

/-- Python `line[:len(line) - len(line.lstrip())]` (leading-whitespace prefix). -/
def topIndent (line : Str) : Str := line.take (line.length - (lstripWs line).length)

/-- Python `line[:len(line) - len(stripped)]` where `stripped = line.strip()`:
a prefix whose length counts both leading and trailing whitespace (a quirk of
_parse_block_contents, kept as in the source). -/
def childIndent (line : Str) : Str := line.take (line.length - (stripWs line).length)

/-- Brace delta of one line with the comment stripped (the counting step of
the parsing loops in structural_merger.py). -/
def braceDeltaLine (line : Str) : Int :=
  let l := cutComment line
  (l.count '{' : Int) - (l.count '}' : Int)

/-- Collector for the top-level block loop: the current line is processed
inside the loop and the loop stops once the running depth is ≤ 0. -/
def collectTopBlock : List Str → Int → (List Str × List Str)
  | [], _ => ([], [])
  | l :: ls, depth =>
    let d := depth + braceDeltaLine l
    if d ≤ 0 then ([l], ls)
    else
      let (a, b) := collectTopBlock ls d
      (l :: a, b)

/-- Collector for a multiline child in _parse_block_contents: the opening line
was already recorded, depth starts at 1 and is checked before each line. -/
def collectChildLines : List Str → Int → (List Str × List Str)
  | [], _ => ([], [])
  | l :: ls, depth =>
    if depth ≤ 0 then ([], l :: ls)
    else
      let d := depth + braceDeltaLine l
      let (a, b) := collectChildLines ls d
      (l :: a, b)

/-- Python `full_text[full_text.find('{') + 1 : full_text.rfind('}')]` with the
guard `inner_end > inner_start` (else the empty string). -/
def innerOf (full : Str) : Str :=
  let inner_start := match findChar full '{' with | some i => i + 1 | none => 0
  let inner_end := match rfindChar full '}' with | some i => i | none => 0
  if inner_start < inner_end then (full.drop inner_start).take (inner_end - inner_start) else []

/-- Regex `^([a-zA-Z0-9_][a-zA-Z0-9_\.:]*)\s*=\s*\{(.*)$` of structural_merger.py
(identifier without spaces); returns the name and the text after the brace. -/
def matchMergerBlock : Str → Option (Str × Str)
  | [] => none
  | c :: t =>
    if isAlnumU c then
      let tl := t.takeWhile isIdentTail
      match (t.drop tl.length).dropWhile isPyWs with
      | '=' :: r =>
        (match r.dropWhile isPyWs with
         | '{' :: r2 => some (c :: tl, r2)
         | _ => none)
      | _ => none
    else none

/-- Regex `^([a-zA-Z0-9_][a-zA-Z0-9_\.:]*)\s*=\s*([^{].*)$`.  The
value-starts-with-space backtracking case is unreachable because the block
regex is always tried first on the same line. -/
def matchMergerProp : Str → Option (Str × Str)
  | [] => none
  | c :: t =>
    if isAlnumU c then
      let tl := t.takeWhile isIdentTail
      match (t.drop tl.length).dropWhile isPyWs with
      | '=' :: r =>
        (match r.dropWhile isPyWs with
         | [] => none
         | '{' :: _ => none
         | v => some (c :: tl, v))
      | _ => none
    else none

/-- Regex `^([a-zA-Z0-9_][a-zA-Z0-9_\.:]*)\s*(#.*)?$` (a bare list item). -/
def matchMergerItem : Str → Option Str
  | [] => none
  | c :: t =>
    if isAlnumU c then
      let tl := t.takeWhile isIdentTail
      match (t.drop tl.length).dropWhile isPyWs with
      | [] => some (c :: tl)
      | '#' :: _ => some (c :: tl)
      | _ => none
    else none

/-- Test for the filter regex `^[a-zA-Z0-9_][a-zA-Z0-9_\.:]*$` in
_parse_list_items. -/
def isIdentFull : Str → Bool
  | [] => false
  | c :: t => isAlnumU c && t.all isIdentTail

/-- One step of the character loop of _parse_list_items; state is
(collected items, current token, depth). -/
def pliStep (acc : List Str × Str × Int) (c : Char) : List Str × Str × Int :=
  let items := acc.1
  let current := acc.2.1
  let depth := acc.2.2
  if c = '{' then (items, current ++ [c], depth + 1)
  else if c = '}' then (items, current ++ [c], depth - 1)
  else if (c = ' ' || c = '\t' || c = '\n') && depth == 0 then
    if stripWs current ≠ [] then
      if !current.contains '=' || current.contains '{' then
        (items ++ [stripWs current], [], depth)
      else (items, [], depth)
    else (items, current, depth)
  else (items, current ++ [c], depth)

/-- Embeds _parse_list_items. -/
def parse_list_items (content : Str) : List Str :=
  let clean_content := joinSp ((splitLines content).map cutComment)
  let fin := clean_content.foldl pliStep ([], [], (0 : Int))
  let items :=
    if stripWs fin.2.1 ≠ [] && (!fin.2.1.contains '=' || fin.2.1.contains '{') then
      fin.1 ++ [stripWs fin.2.1]
    else fin.1
  items.filter isIdentFull

/-- Embeds _normalize_content (comment- and whitespace-stripped join). -/
def normalize_content (content : Str) : Str :=
  joinSp (((splitLines content).map (fun l => stripWs (cutComment l))).filter (fun l => !l.isEmpty))

/-- Embeds _blocks_differ. -/
def blocks_differ (base modb : ParsedBlock) : Bool :=
  normalize_content base.inner_text != normalize_content modb.inner_text

def splitPyWsAux (s : Str) : List Str × Str :=
  s.foldr
    (fun c acc =>
      if isPyWs c then (if acc.2 ≠ [] then (acc.2 :: acc.1, []) else acc)
      else (acc.1, c :: acc.2))
    ([], [])

/-- Python `s.split()` (split on whitespace runs, no empty tokens). -/
def splitPyWs (s : Str) : List Str :=
  let p := splitPyWsAux s
  if p.2 ≠ [] then p.2 :: p.1 else p.1

/-- Embeds _normalize_block_content (the GUI variant: a naive `#` cut that is
not quote-aware, then whitespace collapsing). -/
def normalize_block_content (content : Str) : Str :=
  let lines := ((splitLines content).map (fun l =>
    let l2 := match findChar l '#' with | some i => l.take i | none => l
    stripWs l2)).filter (fun l => !l.isEmpty)
  joinSp (splitPyWs (joinSp lines))

/-- The line loop of _parse_block_contents; the first argument is fuel
(each step consumes at least one line or descends into a strictly shorter
child text). -/
def pbcLines : Nat → List Str → Nat → ParsedBlock → ParsedBlock
  | 0, _, _, block => block
  | _ + 1, [], _, block => block
  | fuel + 1, line :: rest, i, block =>
    let stripped := stripWs line
    if stripped = [] || startsWithS stripped (st "#") then
      pbcLines fuel rest (i + 1) block
    else
      match matchMergerBlock stripped with
      | some (child_name, restg) =>
        if endsWithS (rstripWs restg) (st "\x7d") then
          let inner := stripWs (rstripWs restg).dropLast
          let child0 := ParsedBlock.mk child_name stripped inner i i (childIndent line) false [] [] []
          let child := if inner ≠ [] then child0.setListItems (parse_list_items inner) else child0
          pbcLines fuel rest (i + 1) (block.addChild child)
        else
          let p := collectChildLines rest 1
          let child_lines := line :: p.1
          let child_text := joinNL child_lines
          let inner_text := innerOf child_text
          let child0 := ParsedBlock.mk child_name child_text inner_text i
            (i + child_lines.length - 1) (childIndent line) false [] [] []
          let child1 := pbcLines fuel (splitLines inner_text) 0 child0
          let child := child1.setListItems (parse_list_items inner_text)
          pbcLines fuel p.2 (i + child_lines.length) (block.addChild child)
      | none =>
        match matchMergerProp stripped with
        | some (pname, pval0) =>
          let pv1 := stripWs pval0
          let pv :=
            if pv1.contains '#' then stripWs (pv1.take ((findChar pv1 '#').getD pv1.length))
            else pv1
          pbcLines fuel rest (i + 1) (block.setProperties (upsertA block.properties pname pv))
        | none =>
          match matchMergerItem stripped with
          | some item => pbcLines fuel rest (i + 1) (block.setListItems (block.list_items ++ [item]))
          | none => pbcLines fuel rest (i + 1) block

/-- Embeds _parse_block_contents (the fuel bound dominates the loop and the
nesting depth). -/
def parse_block_contents (block : ParsedBlock) : ParsedBlock :=
  pbcLines ((block.inner_text.length + 2) * (block.inner_text.length + 2))
    (splitLines block.inner_text) 0 block

/-- The main line loop of _parse_top_level_blocks.  It returns the scanned
`(name, block)` events in source order (duplicates included) plus the
collected header lines; the dict assignments `blocks[name] = block` are
replayed afterwards by `upsertList` in the same order, which builds the same
insertion-ordered dict as the source (the loop reads the dict only through
`if not blocks`, i.e. through emptiness of the scan list). -/
def ptlLoop : Nat → List Str → Nat → List (Str × ParsedBlock) → List Str →
    List (Str × ParsedBlock) × List Str
  | 0, _, _, blocks, header => (blocks, header)
  | _ + 1, [], _, blocks, header => (blocks, header)
  | fuel + 1, line :: rest, i, blocks, header =>
    let stripped := stripWs line
    if stripped = [] || startsWithS stripped (st "#") then
      let header2 := if blocks.isEmpty then header ++ [line] else header
      ptlLoop fuel rest (i + 1) blocks header2
    else
      match matchMergerBlock stripped with
      | some (block_name, _) =>
        let p := collectTopBlock (line :: rest) 0
        let full_text := joinNL p.1
        let inner_text := innerOf full_text
        let block0 := ParsedBlock.mk block_name full_text inner_text i
          (i + p.1.length - 1) (topIndent line) false [] [] []
        let block := parse_block_contents block0
        ptlLoop fuel p.2 (i + p.1.length) (blocks ++ [(block_name, block)]) header
      | none => ptlLoop fuel rest (i + 1) blocks header

/-- Replay of the dict assignments `d[k] = v` in scan order. -/
def upsertList {α : Type} (l : List (Str × α)) : List (Str × α) :=
  l.foldl (fun d p => upsertA d p.1 p.2) []

/-- The scanned top-level `(name, block)` events of a file, in source order,
with the trailing `__header__` assignment when header lines were collected. -/
def ptlScan (content : Str) : List (Str × ParsedBlock) :=
  let lines := splitLines content
  let p := ptlLoop (lines.length + 1) lines 0 [] []
  if p.2 ≠ [] then
    p.1 ++ [(st "__header__",
      ParsedBlock.mk (st "__header__") (joinNL p.2) [] 0 (p.2.length - 1) [] false [] [] [])]
  else p.1

/-- Embeds _parse_top_level_blocks. -/
def parse_top_level_blocks (content : Str) : List (Str × ParsedBlock) :=
  upsertList (ptlScan content)

structure MergeChange where
  path : Str
  change_type : Str
  mod_name : Str
  content : Str
deriving DecidableEq, Repr

structure StructuralMergeResult where
  success : Bool
  content : Str := []
  error : Str := []
  changes : List MergeChange := []
deriving DecidableEq, Repr

/-- Match of `re.escape(list_name)\s*=\s*\{` at the current position; returns
the match length. -/
def matchListPatAt (list_name : Str) (s : Str) : Option Nat :=
  if startsWithS s list_name then
    let r0 := s.drop list_name.length
    let w1 := r0.takeWhile isPyWs
    match r0.drop w1.length with
    | '=' :: r1 =>
      let w2 := r1.takeWhile isPyWs
      (match r1.drop w2.length with
       | '{' :: _ => some (list_name.length + w1.length + 1 + w2.length + 1)
       | _ => none)
    | _ => none
  else none

/-- Leftmost match of the list-header pattern: `(start_pos, match_end)`. -/
def searchListPat (list_name : Str) : Nat → Str → Nat → Option (Nat × Nat)
  | 0, _, _ => none
  | fuel + 1, s, i =>
    match matchListPatAt list_name s with
    | some len => some (i, i + len)
    | none =>
      match s with
      | [] => none
      | _ :: t => searchListPat list_name fuel t (i + 1)

/-- The closing-brace scan of _update_list_in_text: depth starts at 0, the
first character is the opening brace itself; returns the offset of the brace
that brings the depth back to 0. -/
def fmcAux : Str → Int → Nat → Option Nat
  | [], _, _ => none
  | c :: t, depth, i =>
    if c = '{' then fmcAux t (depth + 1) (i + 1)
    else if c = '}' then
      (if depth - 1 = 0 then some i else fmcAux t (depth - 1) (i + 1))
    else fmcAux t depth (i + 1)

/-- Indent of the first non-comment, non-blank line (default two tabs). -/
def findListIndent : List Str → Str
  | [] => st "\t\t"
  | l :: ls =>
    let s := stripWs l
    if s ≠ [] && !startsWithS s (st "#") then topIndent l
    else findListIndent ls

/-- Embeds _update_list_in_text. -/
def update_list_in_text (text : Str) (list_name : Str) (old_items new_items : List Str)
    (old_block_text : Str) : Str :=
  match searchListPat list_name (text.length + 1) text 0 with
  | none => text
  | some (start_pos, match_end) =>
    let brace_start := match_end - 1
    let end_pos :=
      match fmcAux (text.drop brace_start) 0 0 with
      | some i => brace_start + i + 1
      | none => brace_start
    let inner := (text.drop (brace_start + 1)).take (end_pos - 1 - (brace_start + 1))
    let new_inner :=
      if inner.contains '\n' then
        let indent := findListIndent (splitLines inner)
        let new_lines := new_items.map (fun it => indent ++ it)
        let comment_lines := (splitLines inner).filterMap (fun l =>
          if startsWithS (stripWs l) (st "#") then some (rstripWs l) else none)
        let close_indent :=
          match (splitLines inner).getLast? with
          | some last => if (stripWs last).isEmpty then last else st "\t"
          | none => st "\t"
        '\n' :: joinNL (new_lines ++ comment_lines) ++ '\n' :: close_indent
      else ' ' :: joinSp new_items ++ [' ']
    let new_block := list_name ++ st " = " ++ '{' :: new_inner ++ ['}']
    text.take start_pos ++ new_block ++ text.drop end_pos

/-- Path string `f"{parent}.{child}[{idx}]"` of the deep-merge change records. -/
def pathIdx (p c : Str) (i : Nat) : Str := p ++ '.' :: c ++ '[' :: st (toString i) ++ [']']

/-- The item-accumulation loop of the ACCUMULATE_LIST branch of
_deep_merge_block, with its change records. -/
def accumFold (parentName childName : Str) (idx : Nat) (mod_blocks : List (Str × ParsedBlock))
    (init : List Str) : List Str × List MergeChange :=
  mod_blocks.foldl
    (fun acc mb =>
      match (getAllChildren mb.2 childName).get? idx with
      | some mod_child =>
        mod_child.list_items.foldl
          (fun a item =>
            if a.1.contains item then a
            else (a.1 ++ [item],
                  a.2 ++ [⟨pathIdx parentName childName idx, st "added_list_item", mb.1, item⟩]))
          acc
      | none => acc)
    (init, [])

/-- The item-only projection of the same loop (used to state C2). -/
def accumItems (baseItems : List Str) (modItemLists : List (List Str)) : List Str :=
  modItemLists.foldl
    (fun acc items => items.foldl (fun a it => if a.contains it then a else a ++ [it]) acc)
    baseItems

/-- The reversed-priority search of the REPLACE_WHOLE child branch: the last
mod that has this child index and actually differs from the base. -/
def replFind (child_name : Str) (idx : Nat) (base_child : ParsedBlock) :
    List (Str × ParsedBlock) → Option (Str × ParsedBlock)
  | [] => none
  | (n, mb) :: t =>
    match (getAllChildren mb child_name).get? idx with
    | some mc =>
      if blocks_differ base_child mc then some (n, mc)
      else replFind child_name idx base_child t
    | none => replFind child_name idx base_child t

/-- Embeds _merge_gui_container (children keyed by normalized content). -/
def merge_gui_container (base_block : ParsedBlock) (mod_blocks : List (Str × ParsedBlock)) :
    Str × List MergeChange :=
  let base_all : List (Str × (Str × Str)) := base_block.children.foldl
    (fun acc ce =>
      ce.2.foldl
        (fun a bc => upsertA a (normalize_block_content bc.inner_text) (st "base", bc.full_text))
        acc)
    []
  let p := mod_blocks.foldl
    (fun (acc : List (Str × (Str × Str)) × List MergeChange) mb =>
      mb.2.children.foldl
        (fun a2 ce =>
          ce.2.foldl
            (fun (a3 : List (Str × (Str × Str)) × List MergeChange) mc =>
              let normalized := normalize_block_content mc.inner_text
              match lookupA a3.1 normalized with
              | some _ => (upsertA a3.1 normalized (mb.1, mc.full_text), a3.2)
              | none =>
                (upsertA a3.1 normalized (mb.1, mc.full_text),
                 a3.2 ++ [⟨base_block.name ++ '.' :: ce.1, st "added_gui_block", mb.1,
                           mc.full_text.take 50⟩]))
            a2)
        acc)
    (base_all, [])
  let block_start := match findChar base_block.full_text '{' with | some i => i + 1 | none => 0
  let indent := base_block.indent ++ ['\t']
  let all_block_texts := p.1.map (fun kv =>
    joinNL ((splitLines (stripWs kv.2.2)).map (fun line =>
      let s := stripWs line
      if s ≠ [] then indent ++ s else [])))
  let header := base_block.full_text.take block_start
  (header ++ '\n' :: joinNL all_block_texts ++ '\n' :: base_block.indent ++ ['}'], p.2)

/-- Embeds _deep_merge_block; returns the merged text and the appended change
records.  Fuel only bounds the nesting recursion (each recursive call descends
into a strictly nested child). -/
def deep_merge_block : Nat → ParsedBlock → List (Str × ParsedBlock) → Nat →
    Str × List MergeChange
  | 0, base_block, _, _ => (base_block.full_text, [])
  | fuel + 1, base_block, mod_blocks, depth =>
    let parent_strategy := get_merge_strategy base_block.name []
    if parent_strategy = .REPLACE_WHOLE then
      match mod_blocks.getLast? with
      | some (last_name, last_block) =>
        (last_block.full_text,
         [⟨base_block.name, st "replaced_whole", last_name, base_block.name⟩])
      | none => (base_block.full_text, [])
    else if is_gui_background_container base_block.name then
      merge_gui_container base_block mod_blocks
    else
      let s1 := base_block.children.foldl
        (fun (acc : Str × List MergeChange) ce =>
          let child_name := ce.1
          let child_strategy := get_merge_strategy child_name base_block.name
          ce.2.enum.foldl
            (fun (acc2 : Str × List MergeChange) ic =>
              let idx := ic.1
              let base_child := ic.2
              if child_strategy = .ACCUMULATE_LIST then
                if base_child.list_items ≠ [] then
                  let p := accumFold base_block.name child_name idx mod_blocks
                    base_child.list_items
                  if p.1.length > base_child.list_items.length then
                    (update_list_in_text acc2.1 child_name base_child.list_items p.1
                       base_child.full_text,
                     acc2.2 ++ p.2)
                  else (acc2.1, acc2.2 ++ p.2)
                else acc2
              else if child_strategy = .RECURSIVE then
                let child_mod_blocks := mod_blocks.filterMap (fun mb =>
                  match (getAllChildren mb.2 child_name).get? idx with
                  | some mc => some (mb.1, mc)
                  | none => none)
                if child_mod_blocks.isEmpty then acc2
                else
                  let q := deep_merge_block fuel base_child child_mod_blocks (depth + 1)
                  (replaceFirst acc2.1 base_child.full_text q.1, acc2.2 ++ q.2)
              else if child_strategy = .REPLACE_WHOLE then
                match replFind child_name idx base_child mod_blocks.reverse with
                | some (mod_name, mod_child) =>
                  (replaceFirst acc2.1 base_child.full_text mod_child.full_text,
                   acc2.2 ++ [⟨pathIdx base_block.name child_name idx, st "replaced_block",
                               mod_name, child_name⟩])
                | none => acc2
              else acc2)
            acc)
        (base_block.full_text, [])
      let s2 := mod_blocks.foldl
        (fun (acc : Str × List MergeChange × List (Str × Nat)) mb =>
          mb.2.children.foldl
            (fun (acc2 : Str × List MergeChange × List (Str × Nat)) ce =>
              let base_count := (getAllChildren base_block ce.1).length
              ce.2.enum.foldl
                (fun (a : Str × List MergeChange × List (Str × Nat)) ic =>
                  if ic.1 ≥ base_count then
                    if a.2.2.contains (ce.1, ic.1) then a
                    else if is_safe_to_add_child ce.1 base_block.name then
                      match rfindChar a.1 '}' with
                      | some p =>
                        if p > 0 then
                          let indent := base_block.indent ++ ['\t']
                          let new_block_text := '\n' :: indent ++ stripWs ic.2.full_text
                          (a.1.take p ++ new_block_text ++ '\n' :: a.1.drop p,
                           a.2.1 ++ [⟨pathIdx base_block.name ce.1 ic.1, st "added_child_block",
                                      mb.1, ce.1⟩],
                           a.2.2 ++ [(ce.1, ic.1)])
                        else a
                      | none => a
                    else
                      (a.1,
                       a.2.1 ++ [⟨pathIdx base_block.name ce.1 ic.1, st "skipped_unsafe", mb.1,
                                  st "skipped unsafe block " ++ ce.1⟩],
                       a.2.2)
                  else a)
                acc2)
            acc)
        (s1.1, s1.2, ([] : List (Str × Nat)))
      (s2.1, s2.2.1)

/-- One top-level block of one mod in the change-collection loop of
merge_contents: `__`-prefixed names are skipped, new blocks are recorded as
`new`, existing ones as `modified` when they differ under normalization. -/
def mcCollectEntry (base_blocks : List (Str × ParsedBlock)) (mod_name : Str)
    (acc : List (Str × List (Str × Str × ParsedBlock))) (be : Str × ParsedBlock) :
    List (Str × List (Str × Str × ParsedBlock)) :=
  if startsWithS be.1 (st "__") then acc
  else
    match lookupA base_blocks be.1 with
    | none => appendEntryA acc be.1 (mod_name, st "new", be.2)
    | some base_block =>
      if blocks_differ base_block be.2 then
        appendEntryA acc be.1 (mod_name, st "modified", be.2)
      else acc

/-- One mod of the change-collection loop of merge_contents. -/
def mcCollect (base_blocks : List (Str × ParsedBlock))
    (acc : List (Str × List (Str × Str × ParsedBlock))) (mc : Str × Str) :
    List (Str × List (Str × Str × ParsedBlock)) :=
  (parse_top_level_blocks mc.2).foldl (mcCollectEntry base_blocks mc.1) acc

/-- One `all_changes` entry of the application loop of merge_contents:
append-verbatim for names absent from the base, last-wins whole-block
substitution for ATOMIC_ACCUMULATE, deep merge for MERGEABLE_CONTAINER
(the `else` fallback of the source is unreachable: TopLevelStrategy has
exactly these two values). -/
def mcApplyStep (base_blocks : List (Str × ParsedBlock)) (filename : Str)
    (acc : Str × List MergeChange) (bc : Str × List (Str × Str × ParsedBlock)) :
    Str × List MergeChange :=
  let block_name := bc.1
  let top_strategy := get_top_level_strategy block_name filename
  match lookupA base_blocks block_name with
  | none =>
    (match bc.2.getLast? with
     | some (last_mod_name, _, last_mod_block) =>
       (rstripWs acc.1 ++ st "\n\n" ++ last_mod_block.full_text,
        acc.2 ++ [⟨block_name, st "added_unique_block", last_mod_name, block_name⟩])
     | none => acc)
  | some base_block =>
    if top_strategy = .ATOMIC_ACCUMULATE then
      match bc.2.getLast? with
      | some (last_mod_name, _, last_mod_block) =>
        (replaceFirst acc.1 base_block.full_text last_mod_block.full_text,
         acc.2 ++ [⟨block_name, st "replaced_atomic", last_mod_name, block_name⟩])
      | none => acc
    else
      let mod_blocks_list := bc.2.map (fun c => (c.1, c.2.2))
      let q := deep_merge_block (base_block.inner_text.length + 2) base_block
        mod_blocks_list 0
      (replaceFirst acc.1 base_block.full_text q.1, acc.2 ++ q.2)

/-- Embeds StructuralMerger.merge_contents.  The Russian error message is
rendered in ASCII; a failure result carries the dataclass defaults
(empty content and changes), exactly as in the source. -/
def merge_contents (base_content0 : Str) (mod_contents0 : List (Str × Str))
    (filename : Str) : StructuralMergeResult :=
  let base_content := replCRLF base_content0
  let mod_contents := mod_contents0.map (fun mc => (mc.1, replCRLF mc.2))
  let base_blocks := parse_top_level_blocks base_content
  let all_changes := mod_contents.foldl (mcCollect base_blocks) []
  let applied := all_changes.foldl (mcApplyStep base_blocks filename) (base_content, [])
  let issues := (validator_validate applied.1 filename).2
  let final_changes := applied.2 ++ issues.filterMap (fun issue =>
    if issue.severity = st "warning" then
      some ⟨issue.path, st "validation_warning", [], issue.message⟩
    else none)
  if !validate_braces applied.1 then
    { success := false, error := st "unbalanced braces after merge" }
  else
    { success := true, content := applied.1, changes := final_changes }

/-! Pdx parser and serializer: src/core/pdx_parser.py -/

inductive NodeType where
  | root | blockN | propertyN | listItem | commentN | emptyLine
deriving DecidableEq, Repr

mutual
inductive PdxNode where
  | mk (node_type : NodeType) (name : Str) (value : Str) (children : PdxForest)
       (comment : Str) (is_commented : Bool) (raw_line : Str) (indent : Str)
inductive PdxForest where
  | nil
  | cons (n : PdxNode) (rest : PdxForest)
end

def PdxNode.node_type : PdxNode → NodeType
  | .mk v _ _ _ _ _ _ _ => v

def PdxNode.name : PdxNode → Str
  | .mk _ v _ _ _ _ _ _ => v

def PdxNode.value : PdxNode → Str
  | .mk _ _ v _ _ _ _ _ => v

def PdxNode.children : PdxNode → PdxForest
  | .mk _ _ _ v _ _ _ _ => v

def PdxNode.comment : PdxNode → Str
  | .mk _ _ _ _ v _ _ _ => v

def PdxNode.is_commented : PdxNode → Bool
  | .mk _ _ _ _ _ v _ _ => v

def PdxNode.raw_line : PdxNode → Str
  | .mk _ _ _ _ _ _ v _ => v

def PdxNode.indent : PdxNode → Str
  | .mk _ _ _ _ _ _ _ v => v

def forestOfList : List PdxNode → PdxForest
  | [] => .nil
  | n :: t => .cons n (forestOfList t)

def listOfForest : PdxForest → List PdxNode
  | .nil => []
  | .cons n t => n :: listOfForest t

def forestIsNil : PdxForest → Bool
  | .nil => true
  | .cons _ _ => false

/-- Regex `^([a-zA-Z0-9_][a-zA-Z0-9_\.:\s]*?)\s*=\s*\{(.*)$` of pdx_parser.py.
The lazy group cannot cross an `=`, so the match is determined by the first
`=`: all characters before it must be in the class (which includes
whitespace), and after it optional whitespace must be followed by `{`.
Returns the stripped name and the text after the brace. -/
def matchPdxBlock (s : Str) : Option (Str × Str) :=
  match findChar s '=' with
  | none => none
  | some p =>
    match s with
    | [] => none
    | c :: _ =>
      if isAlnumU c && ((s.take p).drop 1).all (fun x => isIdentTail x || isPyWs x) then
        let after := s.drop (p + 1)
        let w := after.takeWhile isPyWs
        match after.drop w.length with
        | '{' :: rest => some (stripWs (s.take p), rest)
        | _ => none
      else none

/-- Regex `^([a-zA-Z0-9_][a-zA-Z0-9_\.:]*)\s*=\s*(.+)$` of pdx_parser.py:
identifier (no spaces), `=`, then a non-empty value. -/
def matchPdxProp : Str → Option (Str × Str)
  | [] => none
  | c :: t =>
    if isAlnumU c then
      let tl := t.takeWhile isIdentTail
      match (t.drop tl.length).dropWhile isPyWs with
      | '=' :: r =>
        (match r.dropWhile isPyWs with
         | [] => none
         | v => some (c :: tl, v))
      | _ => none
    else none

/-- Regex `^([a-zA-Z0-9_\.:]+)(.*)$` of pdx_parser.py (initial char may also
be `.` or `:`). -/
def matchPdxList (s : Str) : Option (Str × Str) :=
  let run := s.takeWhile isIdentTail
  if run.isEmpty then none else some (run, s.drop run.length)

/-- Scan of the inline sub-parser for a nested `{ ... }`: consumed text
(including the closing brace when present) and the remainder. -/
def inlineBlockScan : Str → Int → (Str × Str)
  | [], _ => ([], [])
  | c :: t, depth =>
    let d := if c = '{' then depth + 1 else if c = '}' then depth - 1 else depth
    if d = 0 then ([c], t)
    else
      let p := inlineBlockScan t d
      (c :: p.1, p.2)

def isSpTab (c : Char) : Bool := c == ' ' || c == '\t'

/-- The token walk of _parse_inline_content (fuel bounds the loop plus the
nesting recursion). -/
def inlineLoop : Nat → Str → List PdxNode
  | 0, _ => []
  | fuel + 1, s =>
    let s1 := s.dropWhile isSpTab
    match s1 with
    | [] => []
    | _ =>
      let token := s1.takeWhile (fun c => !(isSpTab c || c == '=' || c == '{' || c == '}'))
      let s2 := s1.drop token.length
      if token.isEmpty then inlineLoop fuel (s2.drop 1)
      else
        let s3 := s2.dropWhile isSpTab
        match s3 with
        | '=' :: r0 =>
          let r1 := r0.dropWhile isSpTab
          (match r1 with
           | '{' :: rb =>
             let p := inlineBlockScan rb 1
             let block_content := stripWs p.1.dropLast
             PdxNode.mk .blockN token [] (forestOfList
               (if block_content ≠ [] then inlineLoop fuel block_content else [])) [] false [] []
               :: inlineLoop fuel p.2
           | _ =>
             let value := r1.takeWhile (fun c => !(isSpTab c || c == '{' || c == '}'))
             PdxNode.mk .propertyN token value .nil [] false [] []
               :: inlineLoop fuel (r1.drop value.length))
        | _ => PdxNode.mk .listItem [] token .nil [] false [] [] :: inlineLoop fuel s3

/-- Embeds _parse_inline_content. -/
def parse_inline_content (content : Str) : List PdxNode :=
  let c := stripWs content
  inlineLoop ((c.length + 2) * (c.length + 2)) c

structure PFrame where
  fname : Str
  fcomment : Str
  fraw : Str
  findent : Str
  fchildren : List PdxNode

/-- Parser state: the root children plus the stack of open block frames
(top first).  An empty frame list is the Python stack `[root]`. -/
structure PState where
  rootChildren : List PdxNode
  frames : List PFrame

def appendNode (stp : PState) (n : PdxNode) : PState :=
  match stp.frames with
  | [] => ⟨stp.rootChildren ++ [n], []⟩
  | f :: rest => ⟨stp.rootChildren, { f with fchildren := f.fchildren ++ [n] } :: rest⟩

/-- Close the top block frame.  In the source the block node was appended to
its parent at push time and mutated in place; appending the finished node at
pop time yields the same tree because nothing else can reach the parent while
the frame is open. -/
def popOne (stp : PState) : PState :=
  match stp.frames with
  | [] => stp
  | f :: rest =>
    appendNode ⟨stp.rootChildren, rest⟩
      (PdxNode.mk .blockN f.fname [] (forestOfList f.fchildren) f.fcomment false f.fraw f.findent)

def popN : Nat → PState → PState
  | 0, stp => stp
  | n + 1, stp => popN n (popOne stp)

/-- Number of leading `}` of the pre-comment slice, skipping whitespace, as
in the `while temp.startswith('}')` loop. -/
def countLC : Nat → Str → Nat
  | 0, _ => 0
  | fuel + 1, s =>
    match lstripWs s with
    | '}' :: r => 1 + countLC fuel r
    | _ => 0

/-- Python loop `pos = remaining.find('}'); remaining = remaining[pos+1:].strip()`
performed `leading_close` times. -/
def remStep : Nat → Str → Str
  | 0, s => s
  | n + 1, s =>
    match findChar s '}' with
    | some p => remStep n (stripWs (s.drop (p + 1)))
    | none => remStep n s

/-- One line of PdxParser.parse (the `for line_num, line in enumerate(lines)`
body).  The commented-block recognition in this loop is an unimplemented TODO
in the source: a `#name = {` line falls through to a plain Comment node. -/
def pdxProcessLine (stp : PState) (line : Str) : PState :=
  let stripped := stripWs line
  let indent := if stripped.isEmpty then [] else line.take (line.length - stripped.length)
  if stripped.isEmpty then
    appendNode stp (PdxNode.mk .emptyLine [] [] .nil [] false line indent)
  else
    let line_for_braces := cutComment stripped
    let leading_close := countLC (line_for_braces.length + 1) line_for_braces
    let stp1 := popN leading_close stp
    let remaining := remStep leading_close stripped
    if remaining.isEmpty then stp1
    else if startsWithS remaining (st "#") then
      appendNode stp1 (PdxNode.mk .commentN [] remaining .nil [] false line indent)
    else
      match matchPdxBlock remaining with
      | some (name, rest0) =>
        let pc :=
          match find_comment_start rest0 with
          | some i => (stripWs (rest0.drop i), rest0.take i)
          | none => ([], rest0)
        let comment := pc.1
        let rest := stripWs pc.2
        if endsWithS rest (st "\x7d") then
          let inner := stripWs rest.dropLast
          let children := if inner ≠ [] then parse_inline_content inner else []
          appendNode stp1 (PdxNode.mk .blockN name [] (forestOfList children) comment false line indent)
        else
          ⟨stp1.rootChildren, ⟨name, comment, line, indent, []⟩ :: stp1.frames⟩
      | none =>
        match matchPdxProp remaining with
        | some (name, value0) =>
          let v1 := stripWs value0
          let vc :=
            match find_comment_start v1 with
            | some i => (stripWs (v1.take i), stripWs (v1.drop i))
            | none => (v1, [])
          appendNode stp1 (PdxNode.mk .propertyN name vc.1 .nil vc.2 false line indent)
        | none =>
          match matchPdxList remaining with
          | some (value, rest) =>
            let r := stripWs rest
            let comment := if startsWithS r (st "#") then r else []
            appendNode stp1 (PdxNode.mk .listItem [] value .nil comment false line indent)
          | none =>
            appendNode stp1 (PdxNode.mk .commentN [] remaining .nil [] false line indent)

/-- Embeds PdxParser.parse. -/
def parse_pdx (content0 : Str) : PdxNode :=
  let content := replCRall content0
  let lines := splitLines content
  let fin := lines.foldl pdxProcessLine ⟨[], []⟩
  let closed := popN fin.frames.length fin
  PdxNode.mk .root (st "__root__") [] (forestOfList closed.rootChildren) [] false [] []

/-- Count of children that are not EmptyLine/Comment (the `real_children` of
_can_be_inline). -/
def realCount : PdxForest → Nat
  | .nil => 0
  | .cons n t =>
    (if n.node_type = .emptyLine || n.node_type = .commentN then 0 else 1) + realCount t

mutual
/-- Embeds _can_be_inline. -/
def can_be_inline : PdxNode → Bool
  | .mk _ _ _ children _ _ _ _ =>
    realCount children ≤ 8 && canInlineForest children

def canInlineForest : PdxForest → Bool
  | .nil => true
  | .cons n t =>
    (if n.node_type = .blockN then can_be_inline n else true) && canInlineForest t
end

/-- Raw lines of the children of a commented block with a raw opener (the
`if child.raw_line:` filter). -/
def commentedChildLines : PdxForest → List Str
  | .nil => []
  | .cons n t => (if n.raw_line ≠ [] then [rstripCRLF n.raw_line] else []) ++ commentedChildLines t

mutual
/-- Embeds PdxSerializer._serialize_node.  The `self._can_be_inline(node)`
call is inlined as `realCount children ≤ 8 && canInlineForest children`
(definitionally the same test) so that the recursion is structural. -/
def serialize_node : PdxNode → Nat → Option Str
  | .mk t name value children comment is_comm raw _, indent_level =>
    let indent := tabs indent_level
    match t with
    | .emptyLine => some []
    | .commentN => if raw ≠ [] then some (rstripCRLF raw) else some (indent ++ value)
    | .propertyN =>
      some (indent ++ name ++ st " = " ++ value ++ (if comment ≠ [] then ' ' :: comment else []))
    | .listItem => some (indent ++ value ++ (if comment ≠ [] then ' ' :: comment else []))
    | .blockN =>
      if is_comm then
        if raw ≠ [] then
          some (joinNL ([rstripCRLF raw] ++ commentedChildLines children ++ [indent ++ '#' :: ['}']]))
        else
          some (joinNL ([indent ++ '#' :: name ++ st " = " ++ ['{']] ++
            serializeForestTruthy children (indent_level + 1) ++ [indent ++ '#' :: ['}']]))
      else
        let header := indent ++ name ++ st " = " ++ ['{'] ++
          (if comment ≠ [] then ' ' :: comment else [])
        if forestIsNil children then some (header ++ ' ' :: ['}'])
        else if realCount children ≤ 8 && canInlineForest children then
          some (header ++ ' ' :: joinSp (inlineForest children) ++ ' ' :: ['}'])
        else
          some (joinNL ([header] ++ serializeForestSome children (indent_level + 1) ++
            [indent ++ ['}']]))
    | .root => none

/-- Children serializations kept when `is not None` (normal multiline block
and the top-level serialize loop). -/
def serializeForestSome : PdxForest → Nat → List Str
  | .nil, _ => []
  | .cons n t, lvl =>
    (match serialize_node n lvl with | some s => [s] | none => []) ++ serializeForestSome t lvl

/-- Children serializations kept when truthy (`if child_ser:` in the
commented-block branch drops empty strings too). -/
def serializeForestTruthy : PdxForest → Nat → List Str
  | .nil, _ => []
  | .cons n t, lvl =>
    (match serialize_node n lvl with
     | some s => if s ≠ [] then [s] else []
     | none => []) ++ serializeForestTruthy t lvl

/-- Embeds _inline_child applied across the non-EmptyLine/Comment children. -/
def inlineForest : PdxForest → List Str
  | .nil => []
  | .cons n t =>
    (if n.node_type = .emptyLine || n.node_type = .commentN then [] else [inline_child n]) ++
      inlineForest t

def inline_child : PdxNode → Str
  | .mk t name value children _ _ _ _ =>
    match t with
    | .propertyN => name ++ st " = " ++ value
    | .listItem => value
    | .blockN =>
      if forestIsNil children then name ++ st " = " ++ '{' :: ' ' :: ['}']
      else name ++ st " = " ++ '{' :: ' ' :: joinSp (inlineForest children) ++ ' ' :: ['}']
    | _ => []
end

/-- Embeds PdxSerializer.serialize. -/
def serialize (node : PdxNode) (indent_level : Nat) : Str :=
  joinNL (serializeForestSome node.children indent_level)

/-! Patch orchestrator: the per-file branch of
SmartPatchGenerator.generate_patch (src/core/smart_patch_generator.py,
the body after `changed_sources` is known to be non-empty).  Filesystem
writes are modelled as actions; statistics increments as a delta record. -/

inductive FileAction where
  | writeMerged (content : Str)
  | copyVerbatim (sourceFile : Str)
  | skipFile
  | failFile
deriving DecidableEq, Repr

structure StatsDelta where
  merged : Nat := 0
  copied : Nat := 0
  skipped : Nat := 0
  failed : Nat := 0
  errors : List Str := []
deriving DecidableEq, Repr

/-- Embeds the branch at lines 169-191 of smart_patch_generator.py: a
mergeable changed file goes through the structural merger (write on success
with changes, skip on success without changes, record a failure otherwise);
a non-mergeable changed file is copied verbatim from the last changed mod.
The Russian error text is rendered in ASCII. -/
def process_changed_file (relative_path : Str) (changed_sources : List (Str × Str))
    (mergeable : Bool) (result : StructuralMergeResult) : FileAction × StatsDelta :=
  if mergeable then
    if result.success then
      if !result.changes.isEmpty then
        (.writeMerged result.content, { merged := 1 })
      else (.skipFile, { skipped := 1 })
    else
      (.failFile,
       { failed := 1, errors := [st "merge error " ++ relative_path ++ st ": " ++ result.error] })
  else
    match changed_sources.getLast? with
    | some last => (.copyVerbatim last.2, { copied := 1 })
    | none => (.copyVerbatim [], { copied := 1 })

/-- One work item of the orchestrator loop, with the merge result the merger
returned for it. -/
structure FileWork where
  relative_path : Str
  changed_sources : List (Str × Str)
  mergeable : Bool
  result : StructuralMergeResult

def addDelta (a b : StatsDelta) : StatsDelta :=
  ⟨a.merged + b.merged, a.copied + b.copied, a.skipped + b.skipped, a.failed + b.failed,
   a.errors ++ b.errors⟩

/-- The orchestrator loop over the files that reached the per-file branch: a
plain fold, so one failing file never stops the remaining files. -/
def generate_patch_loop (files : List FileWork) : StatsDelta :=
  files.foldl
    (fun acc fw =>
      addDelta acc (process_changed_file fw.relative_path fw.changed_sources fw.mergeable
        fw.result).2)
    {}

/-! Generic lemmas about the association-list dictionary model. -/

theorem lookupA_upsertA {α : Type} (l : List (Str × α)) (k' : Str) (v : α) (k : Str) :
    lookupA (upsertA l k' v) k = if k' = k then some v else lookupA l k := by
  induction l with
  | nil => simp [upsertA, lookupA]
  | cons p t ih =>
    by_cases h1 : p.1 = k'
    · simp only [upsertA, h1, if_pos rfl]
      by_cases h2 : k' = k <;> simp [lookupA, h1, h2]
    · have : ¬ (p.1 = k') := h1
      simp only [upsertA, if_neg this]
      by_cases h2 : p.1 = k
      · have h3 : ¬ (k' = k) := by intro he; exact h1 (h2 ▸ he ▸ rfl)
        simp [lookupA, h2, h3]
      · simp [lookupA, h2, ih]

/-- The value of the last assignment with a given key, read off a plain list
of assignment events. -/
def lastValue {α : Type} (l : List (Str × α)) (k : Str) : Option α :=
  l.foldl (fun acc p => if p.1 = k then some p.2 else acc) none

theorem lastValue_fold {α : Type} (l : List (Str × α)) (k : Str) :
    ∀ a : Option α,
      l.foldl (fun acc p => if p.1 = k then some p.2 else acc) a =
        match lastValue l k with
        | some v => some v
        | none => a := by
  induction l with
  | nil => intro a; simp [lastValue]
  | cons p t ih =>
    intro a
    show t.foldl _ (if p.1 = k then some p.2 else a) = _
    rw [ih]
    by_cases h : p.1 = k
    · have hl : lastValue (p :: t) k =
          match lastValue t k with
          | some v => some v
          | none => some p.2 := by
        show t.foldl _ (if p.1 = k then some p.2 else none) = _
        rw [ih, if_pos h]
      rw [hl, if_pos h]
      cases lastValue t k <;> simp
    · have hl : lastValue (p :: t) k = lastValue t k := by
        show t.foldl _ (if p.1 = k then some p.2 else none) = _
        rw [ih, if_neg h]
        cases lastValue t k <;> simp [lastValue]
      rw [hl, if_neg h]

theorem lookupA_foldl_upsert {α : Type} (l : List (Str × α)) :
    ∀ (d : List (Str × α)) (k : Str),
      lookupA (l.foldl (fun d p => upsertA d p.1 p.2) d) k =
        match lastValue l k with
        | some v => some v
        | none => lookupA d k := by
  induction l with
  | nil => intro d k; simp [lastValue]
  | cons p t ih =>
    intro d k
    show lookupA (t.foldl _ (upsertA d p.1 p.2)) k = _
    rw [ih, lookupA_upsertA]
    have : lastValue (p :: t) k =
        match lastValue t k with
        | some v => some v
        | none => if p.1 = k then some p.2 else none := by
      show t.foldl _ (if p.1 = k then some p.2 else none) = _
      rw [lastValue_fold]
    rw [this]
    cases lastValue t k <;> by_cases h : p.1 = k <;> simp [h]

/-- The dict built by replaying assignments holds, for each key, the value of
the last assignment with that key. -/
theorem lookupA_upsertList {α : Type} (l : List (Str × α)) (k : Str) :
    lookupA (upsertList l) k = lastValue l k := by
  show lookupA (l.foldl _ []) k = _
  rw [lookupA_foldl_upsert]
  cases lastValue l k <;> simp [lookupA]


def keysND {α : Type} (l : List (Str × α)) : Prop := (l.map Prod.fst).Nodup

theorem upsertA_map_fst {α : Type} (l : List (Str × α)) (k : Str) (v : α) :
    (upsertA l k v).map Prod.fst =
      if k ∈ l.map Prod.fst then l.map Prod.fst else l.map Prod.fst ++ [k] := by
  induction l with
  | nil => simp [upsertA]
  | cons p t ih =>
    by_cases h : p.1 = k
    · simp only [upsertA, if_pos h, List.map_cons]
      have hc : k ∈ p.1 :: t.map Prod.fst := by rw [h]; exact List.mem_cons_self _ _
      rw [if_pos hc, h]
    · have hk : ¬ (k = p.1) := fun he => h he.symm
      simp only [upsertA, if_neg h, List.map_cons, List.mem_cons]
      rw [ih]
      by_cases hm : k ∈ t.map Prod.fst <;> simp [hm, hk]

theorem keysND_upsertA {α : Type} (l : List (Str × α)) (k : Str) (v : α)
    (h : keysND l) : keysND (upsertA l k v) := by
  unfold keysND at *
  rw [upsertA_map_fst]
  by_cases hm : k ∈ l.map Prod.fst
  · simpa [hm] using h
  · simpa [hm, List.nodup_append] using h

theorem keysND_upsertList {α : Type} (l : List (Str × α)) : keysND (upsertList l) := by
  show keysND (l.foldl _ [])
  have : ∀ d : List (Str × α), keysND d → keysND (l.foldl (fun d p => upsertA d p.1 p.2) d) := by
    induction l with
    | nil => intro d hd; exact hd
    | cons p t ih => intro d hd; exact ih _ (keysND_upsertA d p.1 p.2 hd)
  exact this [] (by simp [keysND])

theorem lookupA_of_mem {α : Type} (l : List (Str × α)) (k : Str) (v : α)
    (hnd : keysND l) (hm : (k, v) ∈ l) : lookupA l k = some v := by
  induction l with
  | nil => cases hm
  | cons p t ih =>
    have hnd2 := List.nodup_cons.mp hnd
    rcases List.mem_cons.mp hm with he | ht
    · rw [← he]; simp [lookupA]
    · by_cases h : p.1 = k
      · exfalso
        exact hnd2.1 (h ▸ List.mem_map.mpr ⟨(k, v), ht, rfl⟩)
      · simpa [lookupA, h] using ih hnd2.2 ht

theorem blocks_differ_self (b : ParsedBlock) : blocks_differ b b = false := by
  simp [blocks_differ]

/-! Concrete example inputs used in the claim theorems. -/

set_option maxRecDepth 16000

def egC1base : Str := st "alpha = \x7b\n\tv = 1\n\x7d"

def egC1modA : Str := st "alpha = \x7b\n\tv = 2\n\x7d"

def egC1modB : Str := st "alpha = \x7b\n\tv = 3\n\x7d"

def egS1base : Str := st "on_game_start = \x7b\n\ton_actions = \x7b\n\t\tvanilla_init\n\t\x7d\n\x7d"

def egS1modA : Str :=
  st "on_game_start = \x7b\n\ton_actions = \x7b\n\t\tvanilla_init\n\t\tmodA_init\n\t\x7d\n\x7d"

def egS1modB : Str :=
  st "on_game_start = \x7b\n\ton_actions = \x7b\n\t\tvanilla_init\n\t\tmodB_init\n\t\x7d\n\x7d"

def egS1out : Str :=
  st "on_game_start = \x7b\n\ton_actions = \x7b\n\t\tvanilla_init\n\t\tmodA_init\n\t\tmodB_init\n\t\x7d\n\x7d"

def egC2base : Str := st "on_game_start = \x7b\n\ton_actions = \x7b \x7d\n\x7d"

def egC2modA : Str := st "on_game_start = \x7b\n\ton_actions = \x7b modA_init \x7d\n\x7d"

def egC2rbase : Str := st "on_game_start = \x7b\n\ton_actions = \x7b\n\t\taaa\n\t\tbbb\n\t\x7d\n\x7d"

def egC2rmod : Str := st "on_game_start = \x7b\n\ton_actions = \x7b\n\t\tbbb\n\t\taaa\n\t\x7d\n\x7d"

def egC9opt : Str :=
  st "e.1 = \x7b\n" ++ joinNL (List.replicate 21 (st "option = \x7b \x7d")) ++ st "\n\x7d"

def egC10base : Str := st "a = \x7b\n\tx = 1\n\x7d\na = \x7b\n\tx = 1\n\x7d"

def egC10mod : Str := st "a = \x7b\n\tx = 2\n\x7d"

/-- Modelled on the spec's round-trip equivalence: the line list of a text
after removing trailing whitespace per line and at most one final newline. -/
def rt_norm (t : Str) : List Str :=
  let ls := (splitLines t).map rstripWs
  match ls.getLast? with
  | some [] => ls.dropLast
  | _ => ls

/-- C6: the spec says a line `#name = {` opens a Block node with
`is_commented = true` whose contents are not emitted as separate top-level
Comment nodes.  PdxParser.parse contradicts this: the commented-block branch
is an unimplemented TODO (`pass`), and `_parse_commented_block` is dead code
reachable only from the never-called `_parse_line`.  On the failing input
`#test = {` / `#a = b` / `#}` the parser emits three plain top-level Comment
nodes, none of them a Block and none with `is_commented = true`. -/
theorem C6_commented_block_unimplemented :
    ((listOfForest (parse_pdx (st "#test = \x7b\n#a = b\n#\x7d")).children).map
       PdxNode.node_type = [.commentN, .commentN, .commentN]) ∧
    ((listOfForest (parse_pdx (st "#test = \x7b\n#a = b\n#\x7d")).children).map
       PdxNode.is_commented = [false, false, false]) ∧
    ((listOfForest (parse_pdx (st "#test = \x7b\n#a = b\n#\x7d")).children).map
       PdxNode.value =
       [st "#test = \x7b", st "#a = b", st "#\x7d"]) := by
  refine ⟨?_, ?_, ?_⟩ <;> decide

/-- C2 counterexample: a base child classified AccumulateList whose base list
is empty is left untouched (the `if base_child.list_items:` guard), so the
merged list is not base-items-plus-novel-items: mod A adds `modA_init` to an
empty `on_actions` list and the merge returns the base unchanged with no
change records. -/
theorem C2_counterexample_empty_base_list :
    merge_contents egC2base [(st "A", egC2modA)] [] =
      { success := true, content := egC2base, error := [], changes := [] } ∧
    containsSub egC2base (st "modA_init") = false := by
  refine ⟨?_, ?_⟩ <;> decide

/-- C3 counterexample: the serializer re-emits recognized Property nodes in
canonical spaced form instead of their raw_line, so `a=1` round-trips to
`a = 1`, which differs beyond trailing whitespace and a final newline. -/
theorem C3_counterexample_property_reflow :
    serialize (parse_pdx (st "a=1")) 0 = st "a = 1" ∧
    rt_norm (serialize (parse_pdx (st "a=1")) 0) ≠ rt_norm (st "a=1") := by
  refine ⟨?_, ?_⟩ <;> decide

/-- C4 counterexample: an unrecognized line is preserved as a Comment node
whose raw_line is echoed verbatim, so a stray `{` survives serialization; and
an inline block with a trailing comment is re-emitted with the comment before
the closing brace, unbalancing even a balanced input. -/
theorem C4_counterexample_brace_imbalance :
    count_braces (serialize (parse_pdx (st "\x7b")) 0) = (1, 0) ∧
    validate_braces (serialize (parse_pdx (st "\x7b")) 0) = false ∧
    serialize (parse_pdx (st "a = \x7b b = 1 \x7d #x")) 0 =
      st "a = \x7b #x b = 1 \x7d" ∧
    validate_braces (serialize (parse_pdx (st "a = \x7b b = 1 \x7d #x")) 0) = false := by
  refine ⟨?_, ?_, ?_, ?_⟩ <;> decide

/-- C5 counterexample: merging a base against a byte-identical mod fails
(success = false) when the base itself has unbalanced braces, because the
post-merge brace check runs on the unchanged base text. -/
theorem C5_counterexample_unbalanced_base :
    (merge_contents (st "\x7b") [(st "m", st "\x7b")] []).success = false := by
  decide

/-- C7 counterexample: a line `a < 5` is not treated structurally like the
`=` form: PdxParser.parse yields a ListItem node carrying only the leading
identifier (raw_line keeps the text), not a Property node with value 5. -/
theorem C7_counterexample_operator_line :
    ((listOfForest (parse_pdx (st "a < 5")).children).map PdxNode.node_type =
      [.listItem]) ∧
    ((listOfForest (parse_pdx (st "a < 5")).children).map PdxNode.value = [st "a"]) ∧
    ((listOfForest (parse_pdx (st "a < 5")).children).map PdxNode.raw_line =
      [st "a < 5"]) ∧
    ((listOfForest (parse_pdx (st "a ?= 5")).children).map PdxNode.node_type =
      [.listItem]) := by
  refine ⟨?_, ?_, ?_, ?_⟩ <;> decide

/-- C8 counterexample: when the structural merge of a mergeable file fails,
the orchestrator branch records the error and increments the failed counter
but performs no write at all — in particular it does not copy the last
changed mod's file verbatim. -/
theorem C8_counterexample_no_fallback_write :
    process_changed_file (st "common/x.txt") [(st "m", st "modfile")] true
        { success := false, error := st "boom" } =
      (.failFile,
       { failed := 1, errors := [st "merge error common/x.txt: boom"] }) := by
  decide

/-- C9 counterexample: an event under events/ with no `option` child and no
`type` property produces no validation issue at all — the claimed
well-formedness warning does not exist in the validator. -/
theorem C9_counterexample_missing_option_no_warning :
    validator_validate (st "ev.1 = \x7b\n\x7d") (st "events/test.txt") = (true, []) := by
  decide

/-- C10 counterexample: when a file contains two byte-identical top-level
blocks with the same name, the atomic substitution `str.replace(..., 1)`
rewrites the FIRST occurrence, so the earlier duplicate does not pass through
unchanged (the claim says only the last retained occurrence can be
rewritten). -/
theorem C10_counterexample_first_occurrence_rewritten :
    (merge_contents egC10base [(st "m", egC10mod)] []).content =
      st "a = \x7b\n\tx = 2\n\x7d\na = \x7b\n\tx = 1\n\x7d" := by
  decide

/-! Lemmas for the merge-identity claim. -/

theorem check_duplicates_severity (content filename : Str) :
    ∀ e ∈ check_duplicate_blocks content filename, e.severity = st "error" := by
  unfold check_duplicate_blocks
  generalize (topBlockNames content).foldl _ ([] : List (Str × Nat)) = seen
  have main : ∀ (l : List (Str × Nat)) (acc : List ValidationError),
      (∀ e ∈ acc, e.severity = st "error") →
      ∀ e ∈ l.foldl (fun errs p =>
        if p.2 > 1 && is_event_block p.1 then
          errs ++ [⟨filename ++ '.' :: p.1, st "duplicate event block " ++ p.1, st "error"⟩]
        else errs) acc, e.severity = st "error" := by
    intro l
    induction l with
    | nil => intro acc hacc e he; exact hacc e he
    | cons p t ih =>
      intro acc hacc
      apply ih
      intro e he
      simp only [] at he
      split at he
      · rcases List.mem_append.mp he with h1 | h2
        · exact hacc e h1
        · simp only [List.mem_singleton] at h2
          rw [h2]
      · exact hacc e he
  exact main seen [] (by intro e he; cases he)

theorem parse_top_entry_lookup (content : Str) :
    ∀ e ∈ parse_top_level_blocks content, lookupA (parse_top_level_blocks content) e.1 = some e.2 := by
  intro e he
  exact lookupA_of_mem _ _ _ (keysND_upsertList (ptlScan content)) he

theorem mcCollectEntry_noop (bb : List (Str × ParsedBlock)) (mn : Str) :
    ∀ (entries : List (Str × ParsedBlock)),
      (∀ e ∈ entries, startsWithS e.1 (st "__") = true ∨ lookupA bb e.1 = some e.2) →
      ∀ acc, entries.foldl (mcCollectEntry bb mn) acc = acc := by
  intro entries
  induction entries with
  | nil => intro _ acc; rfl
  | cons e t ih =>
    intro h acc
    have hstep : mcCollectEntry bb mn acc e = acc := by
      rcases h e (List.mem_cons_self _ _) with h1 | h2
      · simp [mcCollectEntry, h1]
      · by_cases hu : startsWithS e.1 (st "__") = true
        · simp [mcCollectEntry, hu]
        · simp only [mcCollectEntry, Bool.not_eq_true] at hu ⊢
          rw [hu, h2]
          simp [blocks_differ_self]
    show t.foldl (mcCollectEntry bb mn) (mcCollectEntry bb mn acc e) = acc
    rw [hstep]
    exact ih (fun x hx => h x (List.mem_cons_of_mem _ hx)) acc

theorem mcCollect_self_noop (base' : Str) (mods : List (Str × Str))
    (hmods : ∀ p ∈ mods, replCRLF p.2 = base') :
    (mods.map (fun mc => (mc.1, replCRLF mc.2))).foldl
      (mcCollect (parse_top_level_blocks base')) [] = [] := by
  have key : ∀ (p : Str × Str), p ∈ mods → ∀ acc,
      mcCollect (parse_top_level_blocks base') acc (p.1, replCRLF p.2) = acc := by
    intro p hp acc
    unfold mcCollect
    simp only
    rw [hmods p hp]
    exact mcCollectEntry_noop _ _ _
      (fun e he => Or.inr (parse_top_entry_lookup base' e he)) acc
  have main : ∀ (l : List (Str × Str)), (∀ p ∈ l, p ∈ mods) → ∀ acc, acc = [] →
      (l.map (fun mc => (mc.1, replCRLF mc.2))).foldl
        (mcCollect (parse_top_level_blocks base')) acc = [] := by
    intro l
    induction l with
    | nil => intro _ acc ha; simpa using ha
    | cons p t ih =>
      intro hl acc ha
      show (t.map _).foldl _ (mcCollect _ acc (p.1, replCRLF p.2)) = []
      rw [key p (hl p (List.mem_cons_self _ _)) acc]
      exact ih (fun x hx => hl x (List.mem_cons_of_mem _ hx)) acc ha
  exact main mods (fun p hp => hp) [] rfl

/-- C5 amended: the claim fails as stated because merge_contents also demands
the (unchanged) result to pass the comment-aware brace-balance check — base
text `{` with a byte-identical mod returns failure.  Amended by the
counterexample's condition: whenever the CRLF-normalized base is
brace-balanced, merging any list of mods whose CRLF-normalized contents equal
the base's returns success, the content equal to the normalized base text,
and an empty change list (the default empty filename triggers no validator
warnings). -/
theorem C5_merge_identity_amended (base : Str) (mods : List (Str × Str))
    (hmods : ∀ p ∈ mods, replCRLF p.2 = replCRLF base)
    (hbal : validate_braces (replCRLF base) = true) :
    merge_contents base mods [] =
      { success := true, content := replCRLF base, error := [], changes := [] } := by
  simp only [merge_contents]
  rw [mcCollect_self_noop (replCRLF base) mods hmods]
  simp only [List.foldl_nil]
  rw [hbal]
  have hwarn : (validator_validate (replCRLF base) []).2.filterMap (fun issue =>
      if issue.severity = st "warning" then
        some (⟨issue.path, st "validation_warning", [], issue.message⟩ : MergeChange)
      else none) = [] := by
    apply List.filterMap_eq_nil.mpr
    intro issue hmem
    have hsev : issue.severity = st "error" := by
      unfold validator_validate at hmem
      simp only at hmem
      have hcond : ¬ ((containsSub ([] : Str) (st "events") ||
          endsWithS ([] : Str) (st "_events.txt")) = true) := by decide
      rw [if_neg hcond, List.append_nil] at hmem
      rcases List.mem_append.mp hmem with h1 | h2
      · by_cases hb : validate_braces (replCRLF base)
        · rw [if_pos hb] at h1; cases h1
        · rw [if_neg hb] at h1
          simp only [List.mem_singleton] at h1
          rw [h1]
      · exact check_duplicates_severity _ _ issue h2
    rw [hsev]
    exact if_neg (by decide)
  simp [hwarn]

/-- C5 witness at a concrete balanced base with one byte-identical mod. -/
theorem C5_merge_identity_amended_witness :
    merge_contents (st "a = \x7b v = 1 \x7d") [(st "m", st "a = \x7b v = 1 \x7d")] [] =
      { success := true, content := replCRLF (st "a = \x7b v = 1 \x7d"), error := [],
        changes := [] } :=
  C5_merge_identity_amended (st "a = \x7b v = 1 \x7d") [(st "m", st "a = \x7b v = 1 \x7d")]
    (by decide) (by decide)

/-! Lemmas for the atomic last-wins claim. -/

theorem mcCollect_single_modified
    (bb : List (Str × ParsedBlock)) (name : Str) (B : ParsedBlock)
    (hname : startsWithS name (st "__") = false)
    (hbase : lookupA bb name = some B) :
    ∀ (mods : List (Str × Str)) (Bs : List ParsedBlock),
      List.Forall₂ (fun (p : Str × Str) Bi =>
        parse_top_level_blocks (replCRLF p.2) = [(name, Bi)] ∧
          blocks_differ B Bi = true) mods Bs →
      ∀ l : List (Str × Str × ParsedBlock),
        (mods.map (fun mc => (mc.1, replCRLF mc.2))).foldl (mcCollect bb) [(name, l)] =
          [(name, l ++ (mods.zip Bs).map (fun q => (q.1.1, st "modified", q.2)))] := by
  intro mods Bs h
  induction h with
  | nil => intro l; simp
  | @cons p Bi mods' Bs' hpB hrest ih =>
    intro l
    have hstep : mcCollect bb [(name, l)] (p.1, replCRLF p.2) =
        [(name, l ++ [(p.1, st "modified", Bi)])] := by
      unfold mcCollect
      simp only
      rw [hpB.1]
      show mcCollectEntry bb p.1 [(name, l)] (name, Bi) = _
      unfold mcCollectEntry
      simp only [hname, Bool.false_eq_true, if_false, hbase, hpB.2, if_true,
        appendEntryA, if_pos rfl]
    show (mods'.map _).foldl (mcCollect bb) (mcCollect bb [(name, l)] (p.1, replCRLF p.2)) = _
    rw [hstep, ih (l ++ [(p.1, st "modified", Bi)])]
    simp

theorem forall2_zip_getLastD {β γ : Type} {R : β → γ → Prop} :
    ∀ (as : List β) (bs : List γ), List.Forall₂ R as bs →
      ∀ (d1 : β) (d2 : γ), (as.zip bs).getLastD (d1, d2) = (as.getLastD d1, bs.getLastD d2) := by
  intro as bs h
  induction h with
  | nil => intro d1 d2; rfl
  | @cons a b as' bs' hab hrest ih =>
    intro d1 d2
    have h1 : ((a :: as').zip (b :: bs')).getLastD (d1, d2) = (as'.zip bs').getLastD (a, b) :=
      List.getLastD_cons _ _ _
    rw [h1, List.getLastD_cons, List.getLastD_cons, ih a b]

theorem getLast?_map' {β γ : Type} (g : β → γ) :
    ∀ (l : List β) (d : β), l ≠ [] → (l.map g).getLast? = some (g (l.getLastD d)) := by
  intro l
  induction l with
  | nil => intro d h; exact absurd rfl h
  | cons x t ih =>
    intro d _
    cases t with
    | nil => rfl
    | cons y t2 =>
      show (g x :: g y :: t2.map g).getLast? = some (g ((y :: t2).getLastD x))
      rw [List.getLast?_cons_cons]
      exact ih x (by simp)

/-- C1: for a base containing the top-level block and mods each shipping a
single differing copy of that block, an AtomicAccumulate strategy makes
merge_contents substitute the base block's full text (at its first
occurrence) with the last mod's full text, record a replaced_atomic change
naming the last mod, and succeed — the merged block is the last mod's block
verbatim, never a field-by-field blend. -/
theorem C1_atomic_replacement_last_wins
    (base : Str) (mods : List (Str × Str)) (Bs : List ParsedBlock)
    (name filename : Str) (B : ParsedBlock)
    (hne : mods ≠ [])
    (hname : startsWithS name (st "__") = false)
    (hbase : lookupA (parse_top_level_blocks (replCRLF base)) name = some B)
    (hmods : List.Forall₂ (fun (p : Str × Str) Bi =>
      parse_top_level_blocks (replCRLF p.2) = [(name, Bi)] ∧
        blocks_differ B Bi = true) mods Bs)
    (hstrat : get_top_level_strategy name filename = .ATOMIC_ACCUMULATE)
    (hbal : validate_braces (replaceFirst (replCRLF base) B.full_text
      (Bs.getLastD default).full_text) = true) :
    (merge_contents base mods filename).success = true ∧
    (merge_contents base mods filename).content =
      replaceFirst (replCRLF base) B.full_text (Bs.getLastD default).full_text ∧
    (⟨name, st "replaced_atomic", (mods.getLastD ([], [])).1, name⟩ : MergeChange) ∈
      (merge_contents base mods filename).changes := by
  have hzipne : mods.zip Bs ≠ [] := by
    cases hmods with
    | nil => exact absurd rfl hne
    | cons h1 h2 => simp
  have hcollect : (mods.map (fun mc => (mc.1, replCRLF mc.2))).foldl
      (mcCollect (parse_top_level_blocks (replCRLF base))) [] =
      [(name, (mods.zip Bs).map (fun q => (q.1.1, st "modified", q.2)))] := by
    cases hmods with
    | nil => exact absurd rfl hne
    | @cons p Bi mods' Bs' hpB hrest =>
      have hstep : mcCollect (parse_top_level_blocks (replCRLF base)) []
          (p.1, replCRLF p.2) = [(name, [(p.1, st "modified", Bi)])] := by
        unfold mcCollect
        simp only
        rw [hpB.1]
        show mcCollectEntry _ p.1 [] (name, Bi) = _
        unfold mcCollectEntry
        simp only [hname, Bool.false_eq_true, if_false, hbase, hpB.2, if_true, appendEntryA]
      show (mods'.map _).foldl _ (mcCollect _ [] (p.1, replCRLF p.2)) = _
      rw [hstep,
        mcCollect_single_modified _ name B hname hbase mods' Bs' hrest
          [(p.1, st "modified", Bi)]]
      simp
  have hlast : ((mods.zip Bs).map (fun q => (q.1.1, st "modified", q.2))).getLast? =
      some ((mods.getLastD ([], [])).1, st "modified", Bs.getLastD default) := by
    rw [getLast?_map' _ (mods.zip Bs) (([], []), default) hzipne,
      forall2_zip_getLastD mods Bs hmods ([], []) default]
  simp only [merge_contents]
  rw [hcollect]
  simp only [List.foldl_cons, List.foldl_nil]
  unfold mcApplyStep
  simp only [hbase, hstrat, hlast, if_pos rfl, if_true]
  rw [hbal]
  simp

def egC1B : ParsedBlock :=
  (lookupA (parse_top_level_blocks (replCRLF egC1base)) (st "alpha")).getD default

def egC1B1 : ParsedBlock :=
  (lookupA (parse_top_level_blocks (replCRLF egC1modA)) (st "alpha")).getD default

def egC1B2 : ParsedBlock :=
  (lookupA (parse_top_level_blocks (replCRLF egC1modB)) (st "alpha")).getD default

/-- C1 witness: two mods changing one default-strategy block; the merged file
is the base with the block replaced by mod B's copy. -/
theorem C1_atomic_replacement_last_wins_witness :
    (merge_contents egC1base [(st "A", egC1modA), (st "B", egC1modB)] []).success = true ∧
    (merge_contents egC1base [(st "A", egC1modA), (st "B", egC1modB)] []).content =
      replaceFirst (replCRLF egC1base) egC1B.full_text
        (([egC1B1, egC1B2].getLastD default).full_text) ∧
    (⟨st "alpha", st "replaced_atomic",
      ([(st "A", egC1modA), (st "B", egC1modB)].getLastD ([], [])).1, st "alpha"⟩ :
        MergeChange) ∈
      (merge_contents egC1base [(st "A", egC1modA), (st "B", egC1modB)] []).changes :=
  C1_atomic_replacement_last_wins egC1base [(st "A", egC1modA), (st "B", egC1modB)]
    [egC1B1, egC1B2] (st "alpha") [] egC1B (by decide) (by decide) rfl
    (List.Forall₂.cons ⟨rfl, by decide⟩ (List.Forall₂.cons ⟨rfl, by decide⟩ List.Forall₂.nil))
    (by decide) (by decide)

/-! Lemmas for the accumulate-list claim. -/

/-- Modelled on the spec's wording for AccumulateList: the novel items, i.e.
those not already in the base list, deduplicated in first-seen order across
the concatenated mod lists. -/
def specNovel (baseItems : List Str) (modItemLists : List (List Str)) : List Str :=
  modItemLists.flatten.foldl
    (fun e it => if baseItems.contains it || e.contains it then e else e ++ [it]) []

theorem foldl_flatten_inner {α β : Type} (f : β → α → β) :
    ∀ (L : List (List α)) (b : β),
      L.foldl (fun acc l => l.foldl f acc) b = L.flatten.foldl f b := by
  intro L
  induction L with
  | nil => intro b; rfl
  | cons l t ih =>
    intro b
    show t.foldl _ (l.foldl f b) = (l ++ t.flatten).foldl f b
    rw [List.foldl_append, ih]

theorem accum_shift :
    ∀ (l : List Str) (bs ex : List Str),
      l.foldl (fun a it => if a.contains it then a else a ++ [it]) (bs ++ ex) =
        bs ++ l.foldl
          (fun e it => if bs.contains it || e.contains it then e else e ++ [it]) ex := by
  intro l
  induction l with
  | nil => intro bs ex; rfl
  | cons it t ih =>
    intro bs ex
    rw [List.foldl_cons, List.foldl_cons]
    have hc : (bs ++ ex).contains it = (bs.contains it || ex.contains it) := by
      simp [List.contains]
    rw [hc]
    by_cases h : (bs.contains it || ex.contains it) = true
    · rw [if_pos h, if_pos h, ih]
    · rw [if_neg h, if_neg h, List.append_assoc, ih]

theorem accumItems_eq_base_append_novel (bs : List Str) (mls : List (List Str)) :
    accumItems bs mls = bs ++ specNovel bs mls := by
  unfold accumItems specNovel
  rw [foldl_flatten_inner]
  have h0 : mls.flatten.foldl (fun a it => if a.contains it then a else a ++ [it]) bs =
      mls.flatten.foldl (fun a it => if a.contains it then a else a ++ [it]) (bs ++ []) := by
    simp
  rw [h0, accum_shift mls.flatten bs []]

theorem accum_noop :
    ∀ (l : List Str) (acc : List Str), (∀ x ∈ l, x ∈ acc) →
      l.foldl (fun a it => if a.contains it then a else a ++ [it]) acc = acc := by
  intro l
  induction l with
  | nil => intro acc _; rfl
  | cons it t ih =>
    intro acc h
    have hm : acc.contains it = true :=
      List.elem_eq_true_of_mem (h it (List.mem_cons_self _ _))
    rw [List.foldl_cons, hm, if_pos rfl]
    exact ih acc (fun x hx => h x (List.mem_cons_of_mem _ hx))

theorem accumFold_inner_fst (pn cn : Str) (idx : Nat) (mn : Str) :
    ∀ (items : List Str) (stp : List Str × List MergeChange),
      (items.foldl
        (fun a item =>
          if a.1.contains item then a
          else (a.1 ++ [item],
                a.2 ++ [⟨pathIdx pn cn idx, st "added_list_item", mn, item⟩])) stp).1 =
      items.foldl (fun a it => if a.contains it then a else a ++ [it]) stp.1 := by
  intro items
  induction items with
  | nil => intro stp; rfl
  | cons it t ih =>
    intro stp
    rw [List.foldl_cons, List.foldl_cons]
    by_cases h : stp.1.contains it = true
    · rw [if_pos h, if_pos h, ih]
    · rw [if_neg h, if_neg h, ih]

theorem accumFold_fst (pn cn : Str) (idx : Nat) :
    ∀ (mods : List (Str × ParsedBlock)) (stp : List Str × List MergeChange),
      (mods.foldl
        (fun acc mb =>
          match (getAllChildren mb.2 cn).get? idx with
          | some mod_child =>
            mod_child.list_items.foldl
              (fun a item =>
                if a.1.contains item then a
                else (a.1 ++ [item],
                      a.2 ++ [⟨pathIdx pn cn idx, st "added_list_item", mb.1, item⟩])) acc
          | none => acc) stp).1 =
      accumItems stp.1 (mods.filterMap
        (fun mb => ((getAllChildren mb.2 cn).get? idx).map ParsedBlock.list_items)) := by
  intro mods
  induction mods with
  | nil => intro stp; rfl
  | cons mb t ih =>
    intro stp
    rw [List.foldl_cons]
    cases hg : (getAllChildren mb.2 cn).get? idx with
    | none =>
      simp only [List.filterMap_cons, hg, Option.map_none']
      exact ih stp
    | some mc =>
      simp only [List.filterMap_cons, hg, Option.map_some']
      rw [ih, accumFold_inner_fst pn cn idx mb.1]
      rfl

/-- The first projection of accumFold is exactly accumItems over the mod item
lists available at this child and index. -/
theorem accumFold_fst_items (pn cn : Str) (idx : Nat) (mods : List (Str × ParsedBlock))
    (init : List Str) :
    (accumFold pn cn idx mods init).1 =
      accumItems init (mods.filterMap
        (fun mb => ((getAllChildren mb.2 cn).get? idx).map ParsedBlock.list_items)) :=
  accumFold_fst pn cn idx mods (init, [])

/-- C2 amended: the claim fails when the base child's list is empty (the
`if base_child.list_items:` guard skips accumulation entirely — see the
counterexample); for a non-empty base list the accumulation loop produces the
base items followed by the novel mod items in first-seen mod order, the base
item set never decreases, nothing changes when no new item appears, and the
S1 scenario merges to `vanilla_init modA_init modB_init` in that order. -/
theorem C2_accumulate_list_amended :
    (∀ (bs : List Str) (mls : List (List Str)),
      accumItems bs mls = bs ++ specNovel bs mls) ∧
    (∀ (bs : List Str) (mls : List (List Str)) (x : Str), x ∈ bs → x ∈ accumItems bs mls) ∧
    (∀ (bs : List Str) (mls : List (List Str)), (∀ x ∈ mls.flatten, x ∈ bs) →
      accumItems bs mls = bs) ∧
    (∀ (pn cn : Str) (idx : Nat) (mods : List (Str × ParsedBlock)) (init : List Str),
      (accumFold pn cn idx mods init).1 =
        accumItems init (mods.filterMap
          (fun mb => ((getAllChildren mb.2 cn).get? idx).map ParsedBlock.list_items))) ∧
    (merge_contents egS1base [(st "A", egS1modA), (st "B", egS1modB)] [] =
      { success := true, content := egS1out, error := [],
        changes :=
          [⟨st "on_game_start.on_actions[0]", st "added_list_item", st "A", st "modA_init"⟩,
           ⟨st "on_game_start.on_actions[0]", st "added_list_item", st "B", st "modB_init"⟩] }) ∧
    (merge_contents egC2rbase [(st "M", egC2rmod)] [] =
      { success := true, content := egC2rbase, error := [], changes := [] }) := by
  refine ⟨accumItems_eq_base_append_novel, ?_, ?_, accumFold_fst_items, by decide, by decide⟩
  · intro bs mls x hx
    rw [accumItems_eq_base_append_novel]
    exact List.mem_append_left _ hx
  · intro bs mls h
    unfold accumItems
    rw [foldl_flatten_inner]
    exact accum_noop mls.flatten bs h

/-! Lemmas for the orchestrator failure claim. -/

theorem process_failed_delta (fw : FileWork) :
    (process_changed_file fw.relative_path fw.changed_sources fw.mergeable fw.result).2.failed =
      if fw.mergeable && !fw.result.success then 1 else 0 := by
  cases hl : fw.changed_sources.getLast? <;> by_cases hm : fw.mergeable <;>
    by_cases hs : fw.result.success <;> by_cases hc : fw.result.changes.isEmpty <;>
    simp [process_changed_file, hm, hs, hc, hl]

theorem gploop_failed :
    ∀ (files : List FileWork) (init : StatsDelta),
      (files.foldl
        (fun acc fw =>
          addDelta acc (process_changed_file fw.relative_path fw.changed_sources fw.mergeable
            fw.result).2) init).failed =
        init.failed + (files.filter (fun fw => fw.mergeable && !fw.result.success)).length := by
  intro files
  induction files with
  | nil => intro init; simp
  | cons fw t ih =>
    intro init
    rw [List.foldl_cons, ih]
    have hd : (addDelta init (process_changed_file fw.relative_path fw.changed_sources
        fw.mergeable fw.result).2).failed =
        init.failed + (if fw.mergeable && !fw.result.success then 1 else 0) := by
      show init.failed + _ = _
      rw [process_failed_delta]
    rw [hd]
    by_cases h : (fw.mergeable && !fw.result.success) = true <;>
      simp [List.filter_cons, h] <;> omega

/-- C8 amended: on a failed structural merge of a mergeable file the
orchestrator increments the failed counter and appends the error message but
writes nothing (no verbatim fallback copy exists on that path — the verbatim
copy of the last changed mod happens only for non-mergeable changed files);
the per-file loop is a plain fold, so failing files never abort the run: the
final failed count is exactly the number of failing mergeable files. -/
theorem C8_failure_handling_amended :
    (∀ (rel : Str) (srcs : List (Str × Str)) (res : StructuralMergeResult),
      res.success = false →
      process_changed_file rel srcs true res =
        (.failFile,
         { failed := 1, errors := [st "merge error " ++ rel ++ st ": " ++ res.error] })) ∧
    (∀ (rel : Str) (srcs : List (Str × Str)) (res : StructuralMergeResult) (last : Str × Str),
      srcs.getLast? = some last →
      process_changed_file rel srcs false res = (.copyVerbatim last.2, { copied := 1 })) ∧
    (∀ files : List FileWork,
      (generate_patch_loop files).failed =
        (files.filter (fun fw => fw.mergeable && !fw.result.success)).length) := by
  refine ⟨?_, ?_, ?_⟩
  · intro rel srcs res h
    simp [process_changed_file, h]
  · intro rel srcs res last h
    simp [process_changed_file, h]
  · intro files
    unfold generate_patch_loop
    rw [gploop_failed files ({} : StatsDelta)]
    simp

/-! Lemmas for the validator claim. -/

theorem eventWarnScan_severity (filename : Str) :
    ∀ (fuel : Nat) (s : Str) (e : ValidationError),
      e ∈ eventWarnScan filename fuel s → e.severity = st "warning" := by
  intro fuel
  induction fuel with
  | zero => intro s e he; cases he
  | succ n ih =>
    intro s e he
    cases s with
    | nil => cases he
    | cons c t =>
      unfold eventWarnScan at he
      cases hm : matchEventAt (c :: t) with
      | none =>
        rw [hm] at he
        exact ih t e he
      | some p =>
        rw [hm] at he
        rcases List.mem_append.mp he with h1 | h2
        · split at h1
          · simp only [List.mem_singleton] at h1
            rw [h1]
          · cases h1
        · exact ih p.2 e h2

/-- C9 amended: the validator has no missing-option / missing-type check at
all — an event with neither yields no issue; the only event well-formedness
issue it can emit is the more-than-20-options warning (every issue of
validate_events has severity warning), while brace imbalance and duplicate
top-level event names yield issues of severity error. -/
theorem C9_validator_amended :
    (∀ (content filename : Str) (e : ValidationError),
      e ∈ validate_events content filename → e.severity = st "warning") ∧
    (∀ (content filename : Str) (e : ValidationError),
      e ∈ check_duplicate_blocks content filename → e.severity = st "error") ∧
    (validator_validate (st "ev.1 = \x7b\nev.1 = \x7b\n\x7d\n\x7d") (st "events/t.txt") =
      (false,
       [⟨st "events/t.txt.ev.1", st "duplicate event block ev.1", st "error"⟩])) ∧
    (validator_validate (st "ev.1 = \x7b\n") (st "events/a.txt") =
      (false, [⟨st "events/a.txt", st "unbalanced braces", st "error"⟩])) ∧
    (validator_validate egC9opt (st "events/t.txt") =
      (true,
       [⟨st "events/t.txt.e.1",
         st "suspiciously many option blocks - possible merge error", st "warning"⟩])) := by
  refine ⟨?_, check_duplicates_severity, by decide, by decide, by decide⟩
  intro content filename e he
  exact eventWarnScan_severity filename (content.length + 1) content e he

/-- C10 amended: the top-level parse dict retains, for every name, exactly
the LAST same-named block of the scan (so merge decisions see only it), but
the textual rewrite substitutes the first occurrence of that block's full
text in the file; when duplicates share identical text the earliest
occurrence is the one rewritten. -/
theorem C10_last_retained_amended :
    (∀ (content k : Str),
      lookupA (parse_top_level_blocks content) k = lastValue (ptlScan content) k) ∧
    ((ptlScan egC10base).map Prod.fst = [st "a", st "a"]) ∧
    ((lookupA (parse_top_level_blocks egC10base) (st "a")).map ParsedBlock.full_text =
      some (st "a = \x7b\n\tx = 1\n\x7d")) ∧
    ((merge_contents egC10base [(st "m", egC10mod)] []).content =
      replaceFirst egC10base (st "a = \x7b\n\tx = 1\n\x7d") (st "a = \x7b\n\tx = 2\n\x7d")) := by
  refine ⟨?_, by decide, ?_, by decide⟩
  · intro content k
    exact lookupA_upsertList (ptlScan content) k
  · have h := lookupA_upsertList (ptlScan egC10base) (st "a")
    rw [show lookupA (parse_top_level_blocks egC10base) (st "a") =
      lastValue (ptlScan egC10base) (st "a") from h]
    rfl

/-! Round-trip lemmas for texts of blank and comment lines (C3). -/

theorem replCRLF_no_cr : ∀ (t : Str), (∀ c ∈ t, c ≠ '\r') → replCRLF t = t
  | [], _ => rfl
  | c :: t, h => by
    have hc : c ≠ '\r' := h c (List.mem_cons_self _ _)
    have ih := replCRLF_no_cr t (fun x hx => h x (List.mem_cons_of_mem c hx))
    rw [replCRLF.eq_def]
    split
    · next heq => simp at heq
    · next heq =>
        injection heq with h1 _
        exact absurd h1 hc
    · next heq =>
        injection heq with h1 h2
        subst h1
        subst h2
        rw [ih]

theorem replCRall_no_cr (t : Str) (h : ∀ c ∈ t, c ≠ '\r') : replCRall t = t := by
  rw [replCRall, replCRLF_no_cr t h]
  have h2 : t.map (fun c => if c == '\r' then '\n' else c) = t.map id := by
    apply List.map_congr_left
    intro c hc
    simp only [id]
    rw [if_neg ?_]
    intro he
    exact h c hc (by simpa using he)
  rw [h2, List.map_id]

theorem splitLines_ne_nil : ∀ (s : Str), splitLines s ≠ []
  | [] => by simp [splitLines]
  | c :: t => by
    simp only [splitLines]
    rcases h : splitLines t with _ | ⟨l, ls⟩
    · simp
    · by_cases hc : c = '\n' <;> simp [hc]

theorem splitLines_no_nl : ∀ (s : Str) (l : Str), l ∈ splitLines s → '\n' ∉ l
  | [], l, hl => by
    simp [splitLines] at hl; subst hl; simp
  | c :: t, l, hl => by
    simp only [splitLines] at hl
    rcases h : splitLines t with _ | ⟨l0, ls⟩ <;> rw [h] at hl
    · simp at hl; subst hl; simp
    · dsimp only at hl
      by_cases hc : c = '\n'
      · rw [if_pos hc] at hl
        rcases List.mem_cons.mp hl with rfl | hl'
        · simp
        · exact splitLines_no_nl t l (by rw [h]; exact hl')
      · rw [if_neg hc] at hl
        rcases List.mem_cons.mp hl with rfl | hl'
        · intro hm
          rcases List.mem_cons.mp hm with he | hm'
          · exact hc he.symm
          · exact splitLines_no_nl t l0 (by rw [h]; exact List.mem_cons_self _ _) hm'
        · exact splitLines_no_nl t l (by rw [h]; exact List.mem_cons_of_mem l0 hl')

theorem splitLines_single : ∀ (l : Str), '\n' ∉ l → splitLines l = [l]
  | [], _ => rfl
  | c :: t, h => by
    have hc : c ≠ '\n' := fun he => h (List.mem_cons.mpr (Or.inl he.symm))
    simp only [splitLines]
    rw [splitLines_single t (fun hm => h (List.mem_cons_of_mem c hm))]
    simp [hc]

theorem splitLines_append_nl : ∀ (l rest : Str), '\n' ∉ l →
    splitLines (l ++ '\n' :: rest) = l :: splitLines rest
  | [], rest, _ => by
    simp only [List.nil_append, splitLines]
    rcases h : splitLines rest with _ | ⟨l0, ls⟩
    · exact absurd h (splitLines_ne_nil rest)
    · simp
  | c :: t, rest, h => by
    have hc : c ≠ '\n' := fun he => h (List.mem_cons.mpr (Or.inl he.symm))
    simp only [List.cons_append, splitLines, List.append_eq]
    rw [splitLines_append_nl t rest (fun hm => h (List.mem_cons_of_mem c hm))]
    simp [hc]

theorem joinNL_single (l : Str) : joinNL [l] = l := by
  simp [joinNL, joinSep, List.intercalate]

theorem joinNL_cons (l l' : Str) (ls : List Str) :
    joinNL (l :: l' :: ls) = l ++ '\n' :: joinNL (l' :: ls) := by
  simp [joinNL, joinSep, List.intercalate, List.intersperse]

theorem splitLines_joinNL : ∀ (ls : List Str), (∀ l ∈ ls, '\n' ∉ l) → ls ≠ [] →
    splitLines (joinNL ls) = ls
  | [], _, hne => absurd rfl hne
  | [l], h, _ => by
    rw [joinNL_single]
    exact splitLines_single l (h l (List.mem_cons_self _ _))
  | l :: l' :: ls, h, _ => by
    rw [joinNL_cons]
    rw [splitLines_append_nl l (joinNL (l' :: ls)) (h l (List.mem_cons_self _ _))]
    rw [splitLines_joinNL (l' :: ls) (fun x hx => h x (List.mem_cons_of_mem l hx)) (by simp)]

theorem dropWhile_dropWhile_subset {p q : Char → Bool} (hpq : ∀ c, p c = true → q c = true) :
    ∀ (s : Str), (s.dropWhile p).dropWhile q = s.dropWhile q
  | [] => rfl
  | c :: t => by
    by_cases hc : p c = true
    · rw [List.dropWhile_cons, if_pos hc, dropWhile_dropWhile_subset hpq t,
        List.dropWhile_cons, if_pos (hpq c hc)]
    · rw [List.dropWhile_cons, if_neg hc]

theorem rstripWs_rstripCRLF (l : Str) : rstripWs (rstripCRLF l) = rstripWs l := by
  simp only [rstripWs, rstripCRLF, List.reverse_reverse]
  rw [dropWhile_dropWhile_subset ?_ l.reverse]
  intro c hc
  have h2 : c = '\r' ∨ c = '\n' := by simpa using hc
  rcases h2 with h | h <;> (subst h; rfl)

theorem mem_dropWhile {p : Char → Bool} (c : Char) (x : Str) (h : c ∈ x.dropWhile p) : c ∈ x := by
  have h2 : c ∈ x.takeWhile p ++ x.dropWhile p := List.mem_append.mpr (Or.inr h)
  rwa [List.takeWhile_append_dropWhile] at h2

theorem mem_rstripCRLF (c : Char) (l : Str) (h : c ∈ rstripCRLF l) : c ∈ l := by
  rw [rstripCRLF, List.mem_reverse] at h
  exact List.mem_reverse.mp (mem_dropWhile c l.reverse h)

theorem rstripWs_nil_iff (l : Str) : rstripWs l = [] ↔ ∀ c ∈ l, isPyWs c = true := by
  simp [rstripWs, List.dropWhile_eq_nil_iff]

theorem lstripWs_nil_iff (l : Str) : lstripWs l = [] ↔ ∀ c ∈ l, isPyWs c = true := by
  simp [lstripWs, List.dropWhile_eq_nil_iff]

theorem dropWhile_head_false {p : Char → Bool} : ∀ (l : Str) (d : Char) (r : Str),
    l.dropWhile p = d :: r → p d = false
  | [], _, _, h => by simp at h
  | c :: t, d, r, h => by
    by_cases hc : p c = true
    · rw [List.dropWhile_cons, if_pos hc] at h
      exact dropWhile_head_false t d r h
    · rw [List.dropWhile_cons, if_neg hc] at h
      injection h with h1 h2
      rw [← h1]
      exact Bool.eq_false_iff.mpr hc

theorem rstripWs_of_stripWs_nil (l : Str) (h : stripWs l = []) : rstripWs l = [] := by
  rw [stripWs] at h
  have h1 : ∀ c ∈ lstripWs l, isPyWs c = true := (rstripWs_nil_iff _).mp h
  have h2 : lstripWs l = [] := by
    rcases he : lstripWs l with _ | ⟨d, r⟩
    · rfl
    · exfalso
      have hd := h1 d (by rw [he]; exact List.mem_cons_self _ _)
      have hf := dropWhile_head_false l d r (by rw [lstripWs] at he; exact he)
      rw [hf] at hd
      exact Bool.false_ne_true hd
  exact (rstripWs_nil_iff _).mpr ((lstripWs_nil_iff _).mp h2)

theorem fcs_hash (r : Str) : find_comment_start ('#' :: r) = some 0 := by
  show fcsAux ('#' :: r) false 0 ' ' = some 0
  rw [fcsAux]
  rw [if_neg (by decide), if_pos (by decide)]

theorem cutComment_hash (r : Str) : cutComment ('#' :: r) = [] := by
  simp [cutComment, fcs_hash]

/-- The node PdxParser.parse builds for a blank line or a comment line. -/
def bcNode (l : Str) : PdxNode :=
  if (stripWs l).isEmpty then PdxNode.mk .emptyLine [] [] .nil [] false l []
  else PdxNode.mk .commentN [] (stripWs l) .nil [] false l
    (l.take (l.length - (stripWs l).length))

theorem pdxProcessLine_bc (acc : List PdxNode) (l : Str)
    (h : stripWs l = [] ∨ (stripWs l).head? = some '#') :
    pdxProcessLine ⟨acc, []⟩ l = ⟨acc ++ [bcNode l], []⟩ := by
  rcases h with h | h
  · simp only [pdxProcessLine, bcNode, h]
    simp [appendNode]
  · rcases hs : stripWs l with _ | ⟨c, r⟩
    · rw [hs] at h; simp at h
    · rw [hs] at h
      simp only [List.head?_cons, Option.some.injEq] at h
      subst h
      simp only [pdxProcessLine, bcNode, hs]
      rw [cutComment_hash]
      simp only [List.isEmpty_cons, Bool.false_eq_true, if_false, List.length_nil]
      rw [show countLC (0 + 1) [] = 0 from rfl]
      simp only [popN, remStep]
      rw [if_neg (by simp), if_pos (by simp [startsWithS, st, List.isPrefixOf])]
      simp [appendNode]

theorem foldBC : ∀ (ls : List Str) (acc : List PdxNode),
    (∀ l ∈ ls, stripWs l = [] ∨ (stripWs l).head? = some '#') →
    ls.foldl pdxProcessLine ⟨acc, []⟩ = ⟨acc ++ ls.map bcNode, []⟩
  | [], acc, _ => by simp
  | l :: ls, acc, h => by
    rw [List.foldl_cons, pdxProcessLine_bc acc l (h l (List.mem_cons_self _ _))]
    rw [foldBC ls (acc ++ [bcNode l]) (fun x hx => h x (List.mem_cons_of_mem l hx))]
    simp

theorem parse_pdx_bc (t : Str) (hcr : ∀ c ∈ t, c ≠ '\r')
    (hbc : ∀ l ∈ splitLines t, stripWs l = [] ∨ (stripWs l).head? = some '#') :
    parse_pdx t = PdxNode.mk .root (st "__root__") []
      (forestOfList ((splitLines t).map bcNode)) [] false [] [] := by
  simp only [parse_pdx]
  rw [replCRall_no_cr t hcr]
  rw [foldBC (splitLines t) [] hbc]
  simp [popN]

theorem serialize_node_bc (l : Str) :
    serialize_node (bcNode l) 0 = some (if (stripWs l).isEmpty then [] else rstripCRLF l) := by
  by_cases hb : (stripWs l).isEmpty = true
  · rw [bcNode, if_pos hb, if_pos hb]
    rfl
  · have hl : l ≠ [] := by
      intro he; subst he; exact hb rfl
    rw [bcNode, if_neg hb, if_neg hb]
    simp only [serialize_node]
    rw [if_pos hl]

theorem serializeForestSome_bc : ∀ (ls : List Str),
    serializeForestSome (forestOfList (ls.map bcNode)) 0 =
      ls.map (fun l => if (stripWs l).isEmpty then [] else rstripCRLF l)
  | [] => rfl
  | l :: ls => by
    simp only [List.map_cons, forestOfList, serializeForestSome, serialize_node_bc l,
      serializeForestSome_bc ls]
    simp

/-- C3 amended: the unrestricted round-trip fails (the serializer re-emits
recognized Property/Block nodes in canonical form, see the reflow
counterexample), but it holds on texts whose lines are all blank or comment
lines and that contain no carriage returns: PdxParser.parse turns each line
into an EmptyLine or Comment node, the serializer echoes each comment line's
raw_line (modulo `rstrip('\r\n')`) and emits blank lines as empty, and the
round-trip is the identity modulo trailing whitespace per line and at most
one final newline (the rt_norm equivalence). -/
theorem C3_round_trip_amended (t : Str)
    (hcr : ∀ c ∈ t, c ≠ '\r')
    (hbc : ∀ l ∈ splitLines t, stripWs l = [] ∨ (stripWs l).head? = some '#') :
    serialize (parse_pdx t) 0 =
      joinNL ((splitLines t).map (fun l => if (stripWs l).isEmpty then [] else rstripCRLF l)) ∧
    rt_norm (serialize (parse_pdx t) 0) = rt_norm t := by
  have hser : serialize (parse_pdx t) 0 =
      joinNL ((splitLines t).map (fun l => if (stripWs l).isEmpty then [] else rstripCRLF l)) := by
    rw [parse_pdx_bc t hcr hbc]
    simp only [serialize, PdxNode.children]
    rw [serializeForestSome_bc]
  refine ⟨hser, ?_⟩
  rw [hser]
  have hnl : ∀ l ∈ (splitLines t).map
      (fun l => if (stripWs l).isEmpty then [] else rstripCRLF l), '\n' ∉ l := by
    intro l hl
    rcases List.mem_map.mp hl with ⟨x, hx, rfl⟩
    by_cases hb : (stripWs x).isEmpty = true
    · simp [hb]
    · rw [if_neg hb]
      intro hm
      exact splitLines_no_nl t x hx (mem_rstripCRLF _ _ hm)
  have hne : (splitLines t).map
      (fun l => if (stripWs l).isEmpty then [] else rstripCRLF l) ≠ [] := by
    intro hh
    exact splitLines_ne_nil t (List.map_eq_nil_iff.mp hh)
  have hsplit := splitLines_joinNL _ hnl hne
  have hmap : ((splitLines t).map
      (fun l => if (stripWs l).isEmpty then [] else rstripCRLF l)).map rstripWs =
      (splitLines t).map rstripWs := by
    rw [List.map_map]
    apply List.map_congr_left
    intro x _
    simp only [Function.comp]
    by_cases hb : (stripWs x).isEmpty = true
    · rw [if_pos hb]
      have hnil : stripWs x = [] := by
        rcases hsx : stripWs x with _ | _
        · rfl
        · rw [hsx] at hb; simp at hb
      rw [show rstripWs ([] : Str) = [] from rfl]
      exact (rstripWs_of_stripWs_nil x hnil).symm
    · rw [if_neg hb]
      exact rstripWs_rstripCRLF x
  simp only [rt_norm]
  rw [hsplit, hmap]

def egC3 : Str := st "# header\n\n\t# indented  \n   "

theorem C3_round_trip_amended_witness :
    serialize (parse_pdx egC3) 0 =
      joinNL ((splitLines egC3).map (fun l => if (stripWs l).isEmpty then [] else rstripCRLF l)) ∧
    rt_norm (serialize (parse_pdx egC3) 0) = rt_norm egC3 :=
  C3_round_trip_amended egC3 (by decide) (by decide)



/-! Operator-line lemmas (C7). -/

theorem identTail_not_ws (c : Char) (h : isIdentTail c = true) : isPyWs c = false := by
  cases hw : isPyWs c
  · rfl
  · exfalso
    have h6 : ((((c = ' ' ∨ c = '\t') ∨ c = '\n') ∨ c = '\r') ∨ c = '\x0b') ∨ c = '\x0c' := by
      simpa [isPyWs] using hw
    rcases h6 with ((((rfl | rfl) | rfl) | rfl) | rfl) | rfl <;> exact absurd h (by decide)

theorem identTail_ne_of (c : Char) (h : isIdentTail c = true) (d : Char)
    (hd : isIdentTail d = false) : c ≠ d := by
  intro he
  subst he
  rw [hd] at h
  exact Bool.false_ne_true h

theorem takeWhile_append_cons {p : Char → Bool} : ∀ (a : Str) (d : Char) (r : Str),
    a.all p = true → p d = false → (a ++ d :: r).takeWhile p = a
  | [], d, r, _, hd => by simp [List.takeWhile_cons, hd]
  | c :: a, d, r, ha, hd => by
    simp only [List.all_cons, Bool.and_eq_true] at ha
    simp [List.takeWhile_cons, ha.1, takeWhile_append_cons a d r ha.2 hd]

theorem dropWhile_append_cons {p : Char → Bool} : ∀ (a : Str) (d : Char) (r : Str),
    a.all p = true → p d = false → (a ++ d :: r).dropWhile p = d :: r
  | [], d, r, _, hd => by simp [List.dropWhile_cons, hd]
  | c :: a, d, r, ha, hd => by
    simp only [List.all_cons, Bool.and_eq_true] at ha
    simp [List.dropWhile_cons, ha.1, dropWhile_append_cons a d r ha.2 hd]

theorem findChar_none (s : Str) (c : Char) (h : ∀ x ∈ s, (x == c) = false) :
    findChar s c = none := by
  rw [findChar]
  rw [List.findIdx?_eq_none_iff]
  exact h

theorem findChar_append_eq : ∀ (a : Str) (b : Str) (c : Char),
    (∀ x ∈ a, (x == c) = false) → findChar (a ++ c :: b) c = some a.length
  | [], b, c, _ => by simp [findChar, List.findIdx?_cons]
  | x :: a, b, c, h => by
    have hx : (x == c) = false := h x (List.mem_cons_self _ _)
    have ih := findChar_append_eq a b c (fun y hy => h y (List.mem_cons_of_mem x hy))
    rw [findChar] at ih ⊢
    simp [List.findIdx?_cons, hx, ih]

theorem matchPdxBlock_none_noeq (s : Str) (h : ∀ x ∈ s, (x == '=') = false) :
    matchPdxBlock s = none := by
  simp only [matchPdxBlock]
  rw [findChar_none s '=' h]

theorem matchPdxBlock_op2 (n0 : Char) (nt : Str) (o0 : Char) (b : Str)
    (hn1 : (n0 :: nt).all isIdentTail = true)
    (ho : (isIdentTail o0 || isPyWs o0) = false) (hoe : (o0 == '=') = false) :
    matchPdxBlock (((n0 :: nt) ++ [' ', o0]) ++ '=' :: b) = none := by
  have hfc : findChar (((n0 :: nt) ++ [' ', o0]) ++ '=' :: b) '=' =
      some ((n0 :: nt) ++ [' ', o0]).length := by
    apply findChar_append_eq
    intro x hx
    rcases List.mem_append.mp hx with hx | hx
    · have hxt := List.all_eq_true.mp hn1 x hx
      exact beq_eq_false_iff_ne.mpr (identTail_ne_of x hxt '=' (by decide))
    · rcases List.mem_cons.mp hx with rfl | hx
      · decide
      · rcases List.mem_cons.mp hx with rfl | hx
        · exact hoe
        · simp at hx
  simp only [matchPdxBlock]
  rw [hfc]
  dsimp only
  split
  · rfl
  · rw [List.take_left]
    have hall : ((((n0 :: nt) ++ [' ', o0]).drop 1).all fun x => isIdentTail x || isPyWs x)
        = false := by
      simp [List.all_append, ho]
    rw [hall, Bool.and_false]
    simp

theorem matchPdxProp_op (n0 : Char) (nt : Str) (o0 : Char) (b : Str)
    (h0 : isAlnumU n0 = true) (hnt : nt.all isIdentTail = true)
    (hws : isPyWs o0 = false) (hne : o0 ≠ '=') :
    matchPdxProp (n0 :: (nt ++ ' ' :: o0 :: b)) = none := by
  simp only [matchPdxProp]
  rw [if_pos h0]
  rw [takeWhile_append_cons nt ' ' (o0 :: b) hnt (by decide)]
  rw [List.drop_left]
  rw [List.dropWhile_cons]
  rw [if_pos (by decide)]
  rw [List.dropWhile_cons]
  rw [if_neg (by rw [hws]; exact Bool.false_ne_true)]
  split
  · next r heq =>
      injection heq with h1 _
      exact absurd h1 hne
  · rfl

theorem matchPdxList_op (name : Str) (d : Char) (r : Str) (hn : name ≠ [])
    (hn1 : name.all isIdentTail = true) (hd : isIdentTail d = false) :
    matchPdxList (name ++ d :: r) = some (name, d :: r) := by
  simp only [matchPdxList]
  rw [takeWhile_append_cons name d r hn1 hd]
  rw [List.drop_left]
  rw [if_neg ?_]
  rcases name with _ | ⟨c, t⟩
  · exact absurd rfl hn
  · simp

theorem dropWhile_eq_self_of_head {p : Char → Bool} (c : Char) (t : Str) (hc : p c = false) :
    (c :: t).dropWhile p = c :: t := by
  rw [List.dropWhile_cons, if_neg (by rw [hc]; exact Bool.false_ne_true)]

theorem rstripWs_append_of (a b : Str) (hb : rstripWs b = b) (hbne : b ≠ []) :
    rstripWs (a ++ b) = a ++ b := by
  rcases hr : b.reverse with _ | ⟨d, r⟩
  · exact absurd (by simpa using hr) hbne
  · have hb' : (b.reverse).dropWhile isPyWs = b.reverse := by
      have h2 := congrArg List.reverse hb
      rwa [rstripWs, List.reverse_reverse] at h2
    rw [hr] at hb'
    have hd : isPyWs d = false := dropWhile_head_false (d :: r) d r hb'
    rw [rstripWs, List.reverse_append, hr, List.cons_append]
    rw [dropWhile_eq_self_of_head d (r ++ a.reverse) hd]
    rw [← List.cons_append, ← hr, List.reverse_append, List.reverse_reverse,
      List.reverse_reverse]

theorem fcs_none : ∀ (s : Str) (inQ : Bool) (i : Nat) (prev : Char),
    (∀ c ∈ s, c ≠ '#' ∧ c ≠ '"') → fcsAux s inQ i prev = none
  | [], _, _, _, _ => rfl
  | c :: t, inQ, i, prev, h => by
    have hc := h c (List.mem_cons_self _ _)
    have h1 : (c == '"') = false := beq_eq_false_iff_ne.mpr hc.2
    have h2 : (c == '#') = false := beq_eq_false_iff_ne.mpr hc.1
    rw [fcsAux, h1, h2]
    simp only [Bool.false_and, Bool.false_eq_true, if_false]
    exact fcs_none t _ _ _ (fun x hx => h x (List.mem_cons_of_mem c hx))

theorem countLC_head (fuel : Nat) (c : Char) (t : Str) (h : lstripWs (c :: t) = c :: t)
    (hc : c ≠ '}') : countLC (fuel + 1) (c :: t) = 0 := by
  rw [countLC, h]
  split
  · next heq =>
      injection heq with h1 _
      exact absurd h1 hc
  · rfl

theorem pdxProcessLine_op (acc : List PdxNode) (n0 : Char) (nt o1 value : Str) (o0 : Char)
    (h0 : isAlnumU n0 = true) (hn1 : (n0 :: nt).all isIdentTail = true)
    (hws : isPyWs o0 = false) (hne : o0 ≠ '=') (hnh : o0 ≠ '#')
    (hv : value ≠ []) (hv2 : rstripWs value = value)
    (hfcs : find_comment_start ((n0 :: nt) ++ ' ' :: (o0 :: o1) ++ ' ' :: value) = none)
    (hblock : matchPdxBlock ((n0 :: nt) ++ ' ' :: (o0 :: o1) ++ ' ' :: value) = none) :
    pdxProcessLine ⟨acc, []⟩ ((n0 :: nt) ++ ' ' :: (o0 :: o1) ++ ' ' :: value) =
      ⟨acc ++ [PdxNode.mk .listItem [] (n0 :: nt) .nil [] false
        ((n0 :: nt) ++ ' ' :: (o0 :: o1) ++ ' ' :: value) []], []⟩ := by
  have hL : (n0 :: nt) ++ ' ' :: (o0 :: o1) ++ ' ' :: value =
      n0 :: (nt ++ ' ' :: o0 :: (o1 ++ ' ' :: value)) := by simp
  rw [hL] at hfcs hblock ⊢
  have hn0id : isIdentTail n0 = true := List.all_eq_true.mp hn1 n0 (List.mem_cons_self _ _)
  have hn0ws : isPyWs n0 = false := identTail_not_ws n0 hn0id
  have hntall : nt.all isIdentTail = true := by
    rw [List.all_cons] at hn1
    exact (Bool.and_eq_true _ _ |>.mp hn1).2
  have hlstrip : lstripWs (n0 :: (nt ++ ' ' :: o0 :: (o1 ++ ' ' :: value))) =
      n0 :: (nt ++ ' ' :: o0 :: (o1 ++ ' ' :: value)) :=
    dropWhile_eq_self_of_head n0 _ hn0ws
  have hregroup : n0 :: (nt ++ ' ' :: o0 :: (o1 ++ ' ' :: value)) =
      (n0 :: (nt ++ ' ' :: o0 :: (o1 ++ [' ']))) ++ value := by simp
  have hrstrip : rstripWs (n0 :: (nt ++ ' ' :: o0 :: (o1 ++ ' ' :: value))) =
      n0 :: (nt ++ ' ' :: o0 :: (o1 ++ ' ' :: value)) := by
    conv_lhs => rw [hregroup]
    rw [rstripWs_append_of _ _ hv2 hv]
    exact hregroup.symm
  have hstrip : stripWs (n0 :: (nt ++ ' ' :: o0 :: (o1 ++ ' ' :: value))) =
      n0 :: (nt ++ ' ' :: o0 :: (o1 ++ ' ' :: value)) := by
    simp only [stripWs]
    rw [hlstrip, hrstrip]
  have hcut : cutComment (n0 :: (nt ++ ' ' :: o0 :: (o1 ++ ' ' :: value))) =
      n0 :: (nt ++ ' ' :: o0 :: (o1 ++ ' ' :: value)) := by
    simp only [cutComment, hfcs]
  have hcount : countLC ((n0 :: (nt ++ ' ' :: o0 :: (o1 ++ ' ' :: value))).length + 1)
      (n0 :: (nt ++ ' ' :: o0 :: (o1 ++ ' ' :: value))) = 0 :=
    countLC_head _ n0 _ hlstrip (identTail_ne_of n0 hn0id '}' (by decide))
  have hhash : startsWithS (n0 :: (nt ++ ' ' :: o0 :: (o1 ++ ' ' :: value))) (st "#") = false := by
    rw [show st "#" = ['#'] from rfl, startsWithS, List.isPrefixOf]
    rw [beq_eq_false_iff_ne.mpr (Ne.symm (identTail_ne_of n0 hn0id '#' (by decide)))]
    exact Bool.false_and _
  have hprop : matchPdxProp (n0 :: (nt ++ ' ' :: o0 :: (o1 ++ ' ' :: value))) = none :=
    matchPdxProp_op n0 nt o0 (o1 ++ ' ' :: value) h0 hntall hws hne
  have hlist : matchPdxList (n0 :: (nt ++ ' ' :: o0 :: (o1 ++ ' ' :: value))) =
      some (n0 :: nt, ' ' :: ((o0 :: o1) ++ ' ' :: value)) := by
    rw [show n0 :: (nt ++ ' ' :: o0 :: (o1 ++ ' ' :: value)) =
      (n0 :: nt) ++ ' ' :: ((o0 :: o1) ++ ' ' :: value) from by simp]
    exact matchPdxList_op (n0 :: nt) ' ' ((o0 :: o1) ++ ' ' :: value) (by simp) hn1 (by decide)
  have hstripr : stripWs (' ' :: ((o0 :: o1) ++ ' ' :: value)) =
      o0 :: (o1 ++ ' ' :: value) := by
    simp only [stripWs]
    rw [show lstripWs (' ' :: ((o0 :: o1) ++ ' ' :: value)) = o0 :: (o1 ++ ' ' :: value) from ?_]
    · conv_lhs => rw [show o0 :: (o1 ++ ' ' :: value) = (o0 :: (o1 ++ [' '])) ++ value from by simp]
      rw [rstripWs_append_of _ _ hv2 hv]
      simp
    · simp only [lstripWs]
      rw [List.dropWhile_cons, if_pos (by decide), List.cons_append]
      exact dropWhile_eq_self_of_head o0 _ hws
  have hhash2 : startsWithS (o0 :: (o1 ++ ' ' :: value)) (st "#") = false := by
    rw [show st "#" = ['#'] from rfl, startsWithS, List.isPrefixOf]
    rw [beq_eq_false_iff_ne.mpr (Ne.symm hnh)]
    exact Bool.false_and _
  simp only [pdxProcessLine, hstrip, hcut, hcount, popN, remStep, hhash, hblock, hprop,
    hlist, hstripr, hhash2, List.isEmpty_cons, Bool.false_eq_true, if_false,
    Nat.sub_self, List.take_zero, appendNode]

theorem parse_pdx_op (n0 : Char) (nt o1 value : Str) (o0 : Char)
    (h0 : isAlnumU n0 = true) (hn1 : (n0 :: nt).all isIdentTail = true)
    (hws : isPyWs o0 = false) (hne : o0 ≠ '=') (hnh : o0 ≠ '#')
    (ho1 : ∀ x ∈ o0 :: o1, x ≠ '\n' ∧ x ≠ '\r' ∧ x ≠ '#' ∧ x ≠ '"')
    (hv : value ≠ [])
    (hv1 : value.all
      (fun c => !(c == '=' || c == '#' || c == '"' || c == '\n' || c == '\r')) = true)
    (hv2 : rstripWs value = value)
    (hblock : matchPdxBlock ((n0 :: nt) ++ ' ' :: (o0 :: o1) ++ ' ' :: value) = none) :
    listOfForest (parse_pdx ((n0 :: nt) ++ ' ' :: (o0 :: o1) ++ ' ' :: value)).children =
      [PdxNode.mk .listItem [] (n0 :: nt) .nil [] false
        ((n0 :: nt) ++ ' ' :: (o0 :: o1) ++ ' ' :: value) []] := by
  have hname : ∀ x ∈ n0 :: nt, x ≠ '\n' ∧ x ≠ '\r' ∧ x ≠ '#' ∧ x ≠ '"' := by
    intro x hx
    have hxt := List.all_eq_true.mp hn1 x hx
    exact ⟨identTail_ne_of x hxt '\n' (by decide), identTail_ne_of x hxt '\r' (by decide),
      identTail_ne_of x hxt '#' (by decide), identTail_ne_of x hxt '"' (by decide)⟩
  have hvf : ∀ x ∈ value, x ≠ '\n' ∧ x ≠ '\r' ∧ x ≠ '#' ∧ x ≠ '"' := by
    intro x hx
    have h5 := List.all_eq_true.mp hv1 x hx
    refine ⟨?_, ?_, ?_, ?_⟩ <;> (intro he; subst he; exact absurd h5 (by decide))
  have hmem : ∀ x ∈ (n0 :: nt) ++ ' ' :: (o0 :: o1) ++ ' ' :: value,
      x ≠ '\n' ∧ x ≠ '\r' ∧ x ≠ '#' ∧ x ≠ '"' := by
    intro x hx
    rcases List.mem_append.mp hx with hx | hx
    · rcases List.mem_append.mp hx with hx | hx
      · exact hname x hx
      · rcases List.mem_cons.mp hx with rfl | hx
        · exact ⟨by decide, by decide, by decide, by decide⟩
        · exact ho1 x hx
    · rcases List.mem_cons.mp hx with rfl | hx
      · exact ⟨by decide, by decide, by decide, by decide⟩
      · exact hvf x hx
  have hcr : ∀ c ∈ (n0 :: nt) ++ ' ' :: (o0 :: o1) ++ ' ' :: value, c ≠ '\r' :=
    fun c hc => (hmem c hc).2.1
  have hnl : '\n' ∉ (n0 :: nt) ++ ' ' :: (o0 :: o1) ++ ' ' :: value :=
    fun hm => (hmem '\n' hm).1 rfl
  have hfcs : find_comment_start ((n0 :: nt) ++ ' ' :: (o0 :: o1) ++ ' ' :: value) = none :=
    fcs_none _ false 0 ' ' (fun c hc => ⟨(hmem c hc).2.2.1, (hmem c hc).2.2.2⟩)
  simp only [parse_pdx]
  rw [replCRall_no_cr _ hcr]
  rw [splitLines_single _ hnl]
  rw [List.foldl_cons,
    pdxProcessLine_op [] n0 nt o1 value o0 h0 hn1 hws hne hnh hv hv2 hfcs hblock,
    List.foldl_nil]
  simp [popN, forestOfList, listOfForest, PdxNode.children]

/-- C7 amended: the parser does NOT treat `<`, `>`, `<=`, `>=`, `?=` like the
`=` form.  For a line `name OP value` with OP one of those five operators, an
identifier name and a clean pre-stripped value, all three regexes for
block/property recognition fail and PdxParser.parse yields a single ListItem
node whose value is just the leading identifier, with the full line kept only
in raw_line; and a Property node carrying the same name and value serializes
as `name = value` — only `=` is ever emitted. -/
theorem C7_operator_lines_amended (name op value : Str)
    (hop : op = st "<" ∨ op = st ">" ∨ op = st "<=" ∨ op = st ">=" ∨ op = st "?=")
    (hn : name ≠ []) (hn1 : name.all isIdentTail = true)
    (h0 : isAlnumU (name.headD ' ') = true)
    (hv : value ≠ [])
    (hv1 : value.all
      (fun c => !(c == '=' || c == '#' || c == '"' || c == '\n' || c == '\r')) = true)
    (hv2 : rstripWs value = value) :
    listOfForest (parse_pdx (name ++ ' ' :: op ++ ' ' :: value)).children =
      [PdxNode.mk .listItem [] name .nil [] false (name ++ ' ' :: op ++ ' ' :: value) []] ∧
    serialize_node (PdxNode.mk .propertyN name value .nil [] false
      (name ++ ' ' :: op ++ ' ' :: value) []) 0 = some (name ++ st " = " ++ value) := by
  rcases name with _ | ⟨n0, nt⟩
  · exact absurd rfl hn
  · simp only [List.headD_cons] at h0
    refine ⟨?_, by simp [serialize_node, tabs]⟩
    have hveq : ∀ x ∈ value, (x == '=') = false := by
      intro x hx
      have h5 := List.all_eq_true.mp hv1 x hx
      cases hbe : (x == '=')
      · rfl
      · rw [hbe] at h5; simp at h5
    rcases hop with rfl | rfl | rfl | rfl | rfl
    · rw [show st "<" = '<' :: ([] : Str) from rfl]
      apply parse_pdx_op n0 nt [] value '<' h0 hn1 (by decide) (by decide) (by decide)
        (by decide) hv hv1 hv2
      apply matchPdxBlock_none_noeq
      intro x hx
      rcases List.mem_append.mp hx with hx | hx
      · rcases List.mem_append.mp hx with hx | hx
        · exact beq_eq_false_iff_ne.mpr
            (identTail_ne_of x (List.all_eq_true.mp hn1 x hx) '=' (by decide))
        · rcases List.mem_cons.mp hx with rfl | hx
          · decide
          · rcases List.mem_cons.mp hx with rfl | hx
            · decide
            · simp at hx
      · rcases List.mem_cons.mp hx with rfl | hx
        · decide
        · exact hveq x hx
    · rw [show st ">" = '>' :: ([] : Str) from rfl]
      apply parse_pdx_op n0 nt [] value '>' h0 hn1 (by decide) (by decide) (by decide)
        (by decide) hv hv1 hv2
      apply matchPdxBlock_none_noeq
      intro x hx
      rcases List.mem_append.mp hx with hx | hx
      · rcases List.mem_append.mp hx with hx | hx
        · exact beq_eq_false_iff_ne.mpr
            (identTail_ne_of x (List.all_eq_true.mp hn1 x hx) '=' (by decide))
        · rcases List.mem_cons.mp hx with rfl | hx
          · decide
          · rcases List.mem_cons.mp hx with rfl | hx
            · decide
            · simp at hx
      · rcases List.mem_cons.mp hx with rfl | hx
        · decide
        · exact hveq x hx
    · rw [show st "<=" = '<' :: ('=' :: ([] : Str)) from rfl]
      apply parse_pdx_op n0 nt ['='] value '<' h0 hn1 (by decide) (by decide) (by decide)
        (by decide) hv hv1 hv2
      rw [show (n0 :: nt) ++ ' ' :: ('<' :: ['=']) ++ ' ' :: value =
        ((n0 :: nt) ++ [' ', '<']) ++ '=' :: ' ' :: value from by simp]
      exact matchPdxBlock_op2 n0 nt '<' (' ' :: value) hn1 (by decide) (by decide)
    · rw [show st ">=" = '>' :: ('=' :: ([] : Str)) from rfl]
      apply parse_pdx_op n0 nt ['='] value '>' h0 hn1 (by decide) (by decide) (by decide)
        (by decide) hv hv1 hv2
      rw [show (n0 :: nt) ++ ' ' :: ('>' :: ['=']) ++ ' ' :: value =
        ((n0 :: nt) ++ [' ', '>']) ++ '=' :: ' ' :: value from by simp]
      exact matchPdxBlock_op2 n0 nt '>' (' ' :: value) hn1 (by decide) (by decide)
    · rw [show st "?=" = '?' :: ('=' :: ([] : Str)) from rfl]
      apply parse_pdx_op n0 nt ['='] value '?' h0 hn1 (by decide) (by decide) (by decide)
        (by decide) hv hv1 hv2
      rw [show (n0 :: nt) ++ ' ' :: ('?' :: ['=']) ++ ' ' :: value =
        ((n0 :: nt) ++ [' ', '?']) ++ '=' :: ' ' :: value from by simp]
      exact matchPdxBlock_op2 n0 nt '?' (' ' :: value) hn1 (by decide) (by decide)

def egC7name : Str := st "a"

theorem C7_operator_lines_amended_witness :
    listOfForest (parse_pdx (egC7name ++ ' ' :: st "?=" ++ ' ' :: st "5")).children =
      [PdxNode.mk .listItem [] egC7name .nil [] false
        (egC7name ++ ' ' :: st "?=" ++ ' ' :: st "5") []] ∧
    serialize_node (PdxNode.mk .propertyN egC7name (st "5") .nil [] false
      (egC7name ++ ' ' :: st "?=" ++ ' ' :: st "5") []) 0 =
      some (egC7name ++ st " = " ++ st "5") :=
  C7_operator_lines_amended egC7name (st "?=") (st "5")
    (Or.inr (Or.inr (Or.inr (Or.inr rfl)))) (by decide) (by decide) (by decide)
    (by decide) (by decide) (by decide)

/-! Brace-balance lemmas (C4). -/

/-- Sum of per-line counts of a character. -/

def sumCount (c : Char) : List Str → Nat
  | [] => 0
  | l :: ls => l.count c + sumCount c ls

theorem sumCount_append (c : Char) : ∀ (a b : List Str),
    sumCount c (a ++ b) = sumCount c a + sumCount c b
  | [], b => by simp [sumCount]
  | l :: a, b => by
    simp only [List.cons_append, List.append_eq, sumCount, sumCount_append c a b]
    omega

theorem splitLines_subset : ∀ (s : Str) (l : Str), l ∈ splitLines s → ∀ c ∈ l, c ∈ s
  | [], l, hl => by
    simp [splitLines] at hl; subst hl; simp
  | c :: t, l, hl => by
    simp only [splitLines] at hl
    rcases h : splitLines t with _ | ⟨l0, ls⟩ <;> rw [h] at hl
    · simp at hl; subst hl; simp
    · dsimp only at hl
      by_cases hc : c = '\n'
      · rw [if_pos hc] at hl
        rcases List.mem_cons.mp hl with rfl | hl'
        · simp
        · intro x hx
          exact List.mem_cons_of_mem c (splitLines_subset t l (by rw [h]; exact hl') x hx)
      · rw [if_neg hc] at hl
        rcases List.mem_cons.mp hl with rfl | hl'
        · intro x hx
          rcases List.mem_cons.mp hx with rfl | hx'
          · exact List.mem_cons_self _ _
          · exact List.mem_cons_of_mem c
              (splitLines_subset t l0 (by rw [h]; exact List.mem_cons_self _ _) x hx')
        · intro x hx
          exact List.mem_cons_of_mem c
            (splitLines_subset t l (by rw [h]; exact List.mem_cons_of_mem l0 hl') x hx)

theorem splitLines_sumCount (c : Char) (hc : c ≠ '\n') :
    ∀ (s : Str), sumCount c (splitLines s) = s.count c
  | [] => by simp [splitLines, sumCount]
  | c0 :: t => by
    simp only [splitLines]
    rcases h : splitLines t with _ | ⟨l0, ls⟩
    · exact absurd h (splitLines_ne_nil t)
    · have ih := splitLines_sumCount c hc t
      rw [h] at ih
      simp only [sumCount] at ih
      dsimp only
      by_cases hc0 : c0 = '\n'
      · rw [if_pos hc0]
        subst hc0
        simp only [sumCount]
        rw [List.count_cons, beq_eq_false_iff_ne.mpr (Ne.symm hc)]
        simp only [Bool.false_eq_true, if_false, List.count_nil]
        omega
      · rw [if_neg hc0]
        simp only [sumCount]
        rw [List.count_cons, List.count_cons]
        omega

theorem count_braces_fold : ∀ (lines : List Str) (a b : Nat),
    (∀ l ∈ lines, cutComment l = l) →
    List.foldl (fun acc line =>
      let l := cutComment line
      (acc.1 + l.count '{', acc.2 + l.count '}')) (a, b) lines =
      (a + sumCount '{' lines, b + sumCount '}' lines)
  | [], a, b, _ => by simp [sumCount]
  | l :: ls, a, b, h => by
    rw [List.foldl_cons]
    dsimp only
    rw [h l (List.mem_cons_self _ _)]
    rw [count_braces_fold ls _ _ (fun x hx => h x (List.mem_cons_of_mem l hx))]
    simp only [sumCount]
    rw [Prod.mk.injEq]
    omega

theorem count_braces_eq (s : Str) (h : ∀ c ∈ s, c ≠ '#' ∧ c ≠ '"') :
    count_braces s = (s.count '{', s.count '}') := by
  have hcut : ∀ l ∈ splitLines s, cutComment l = l := by
    intro l hl
    have hfc : find_comment_start l = none :=
      fcs_none l false 0 ' ' (fun c hc => h c (splitLines_subset s l hl c hc))
    simp [cutComment, hfc]
  simp only [count_braces]
  rw [count_braces_fold (splitLines s) 0 0 hcut]
  rw [splitLines_sumCount '{' (by decide) s, splitLines_sumCount '}' (by decide) s]
  simp

theorem joinSep_single (sep l : Str) : joinSep sep [l] = l := by
  simp [joinSep, List.intercalate]

theorem joinSep_cons2 (sep l l' : Str) (ls : List Str) :
    joinSep sep (l :: l' :: ls) = l ++ (sep ++ joinSep sep (l' :: ls)) := by
  simp [joinSep, List.intercalate, List.intersperse]

theorem joinSep_count (sep : Str) (c : Char) (hc : c ∉ sep) : ∀ (ls : List Str),
    (joinSep sep ls).count c = sumCount c ls
  | [] => by simp [joinSep, List.intercalate, sumCount]
  | [l] => by
    rw [joinSep_single]
    simp [sumCount]
  | l :: l' :: ls => by
    rw [joinSep_cons2]
    rw [List.count_append, List.count_append]
    rw [joinSep_count sep c hc (l' :: ls)]
    have hz : sep.count c = 0 := List.count_eq_zero.mpr hc
    simp only [sumCount, hz]
    omega

theorem joinSep_mem (sep : Str) : ∀ (ls : List Str) (x : Char), x ∈ joinSep sep ls →
    x ∈ sep ∨ ∃ l, l ∈ ls ∧ x ∈ l
  | [], x, hx => by simp [joinSep, List.intercalate] at hx
  | [l], x, hx => by
    rw [joinSep_single] at hx
    exact Or.inr ⟨l, List.mem_cons_self _ _, hx⟩
  | l :: l' :: ls, x, hx => by
    rw [joinSep_cons2] at hx
    rcases List.mem_append.mp hx with hx | hx
    · exact Or.inr ⟨l, List.mem_cons_self _ _, hx⟩
    · rcases List.mem_append.mp hx with hx | hx
      · exact Or.inl hx
      · rcases joinSep_mem sep (l' :: ls) x hx with hx | ⟨l2, hl2, hx⟩
        · exact Or.inl hx
        · exact Or.inr ⟨l2, List.mem_cons_of_mem l hl2, hx⟩

theorem sumCount_balanced : ∀ (ls : List Str),
    (∀ l ∈ ls, l.count '{' = l.count '}') → sumCount '{' ls = sumCount '}' ls
  | [], _ => rfl
  | l :: ls, h => by
    simp only [sumCount]
    rw [h l (List.mem_cons_self _ _),
      sumCount_balanced ls (fun x hx => h x (List.mem_cons_of_mem l hx))]

/-- Strings free of braces, hashes and double quotes (payload fields of a
tree the serializer can re-emit without disturbing the brace balance). -/

def cleanStr (s : Str) : Bool :=
  s.all (fun c => !(c == '{' || c == '}' || c == '#' || c == '"'))

theorem cleanStr_facts (s : Str) (h : cleanStr s = true) :
    s.count '{' = 0 ∧ s.count '}' = 0 ∧ ∀ c ∈ s, c ≠ '#' ∧ c ≠ '"' := by
  have hall := List.all_eq_true.mp h
  have hne : ∀ c ∈ s, c ≠ '{' ∧ c ≠ '}' ∧ c ≠ '#' ∧ c ≠ '"' := by
    intro c hc
    have h4 := hall c hc
    refine ⟨?_, ?_, ?_, ?_⟩ <;> (intro he; subst he; exact absurd h4 (by decide))
  exact ⟨List.count_eq_zero.mpr (fun hm => (hne _ hm).1 rfl),
    List.count_eq_zero.mpr (fun hm => (hne _ hm).2.1 rfl),
    fun c hc => ⟨(hne c hc).2.2.1, (hne c hc).2.2.2⟩⟩

/-- No comment or quote characters anywhere in the string. -/

def mem2 (s : Str) : Prop := ∀ c ∈ s, c ≠ '#' ∧ c ≠ '"'

theorem mem2_append (a b : Str) (ha : mem2 a) (hb : mem2 b) : mem2 (a ++ b) := by
  intro c hc
  rcases List.mem_append.mp hc with hc | hc
  · exact ha c hc
  · exact hb c hc

theorem mem2_joinSep (sep : Str) (ls : List Str) (hsep : mem2 sep)
    (h : ∀ l ∈ ls, mem2 l) : mem2 (joinSep sep ls) := by
  intro c hc
  rcases joinSep_mem sep ls c hc with hc | ⟨l, hl, hc⟩
  · exact hsep c hc
  · exact h l hl c hc

/-- Balanced braces and no comment or quote characters: the invariant each
serialized fragment keeps. -/

def bcOut (out : Str) : Prop :=
  out.count '{' = out.count '}' ∧ mem2 out

theorem bcOut_append (a b : Str) (ha : bcOut a) (hb : bcOut b) : bcOut (a ++ b) := by
  refine ⟨?_, mem2_append a b ha.2 hb.2⟩
  rw [List.count_append, List.count_append, ha.1, hb.1]

theorem bcOut_of_clean (s : Str) (h : cleanStr s = true) : bcOut s := by
  obtain ⟨h1, h2, h3⟩ := cleanStr_facts s h
  exact ⟨by rw [h1, h2], h3⟩

theorem tabs_mem (c : Char) (n : Nat) (h : c ∈ tabs n) : c = '\t' :=
  List.eq_of_mem_replicate h

theorem bcOut_tabs (n : Nat) : bcOut (tabs n) := by
  refine ⟨?_, fun c hc => by rw [tabs_mem c n hc]; exact ⟨by decide, by decide⟩⟩
  rw [List.count_eq_zero.mpr (fun hm => absurd (tabs_mem _ n hm) (by decide)),
    List.count_eq_zero.mpr (fun hm => absurd (tabs_mem _ n hm) (by decide))]

theorem bcOut_nil : bcOut ([] : Str) := by
  refine ⟨rfl, ?_⟩
  intro c hc
  simp at hc

theorem bcOut_eqsep : bcOut (st " = ") := by
  refine ⟨rfl, ?_⟩
  intro c hc
  rw [show st " = " = [' ', '=', ' '] from rfl] at hc
  rcases List.mem_cons.mp hc with rfl | hc
  · exact ⟨by decide, by decide⟩
  · rcases List.mem_cons.mp hc with rfl | hc
    · exact ⟨by decide, by decide⟩
    · rcases List.mem_cons.mp hc with rfl | hc
      · exact ⟨by decide, by decide⟩
      · simp at hc

theorem tabs_count (c : Char) (n : Nat) (hc : c ≠ '\t') : (tabs n).count c = 0 :=
  List.count_eq_zero.mpr (fun hm => hc (tabs_mem c n hm))

mutual

/-- A tree the serializer re-emits with balanced braces: no commented nodes,
no inline comments, and payload fields free of braces, hashes and quotes. -/

def cleanNode : PdxNode → Bool
  | .mk _ name value children comment is_comm raw _ =>
    !is_comm && comment.isEmpty && cleanStr name && cleanStr value && cleanStr raw &&
      cleanForest children

def cleanForest : PdxForest → Bool
  | .nil => true
  | .cons n t => cleanNode n && cleanForest t
end

theorem cleanNode_parts (t : NodeType) (name value : Str) (children : PdxForest)
    (comment : Str) (is_comm : Bool) (raw ind : Str)
    (h : cleanNode (.mk t name value children comment is_comm raw ind) = true) :
    is_comm = false ∧ comment = [] ∧ cleanStr name = true ∧ cleanStr value = true ∧
      cleanStr raw = true ∧ cleanForest children = true := by
  simp only [cleanNode, Bool.and_eq_true, Bool.not_eq_true'] at h
  obtain ⟨⟨⟨⟨⟨h1, h2⟩, h3⟩, h4⟩, h5⟩, h6⟩ := h
  refine ⟨h1, ?_, h3, h4, h5, h6⟩
  rcases comment with _ | _
  · rfl
  · simp at h2

theorem cleanForest_parts (n : PdxNode) (t : PdxForest)
    (h : cleanForest (.cons n t) = true) : cleanNode n = true ∧ cleanForest t = true := by
  simp only [cleanForest, Bool.and_eq_true] at h
  exact h

theorem mem2_sp : mem2 [' '] := by unfold mem2; decide

theorem mem2_closer : mem2 (' ' :: ['}']) := by unfold mem2; decide

theorem mem2_obrace : mem2 ['{'] := by unfold mem2; decide

theorem mem2_obracesp : mem2 ['{', ' '] := by unfold mem2; decide

theorem mem2_cbrace : mem2 ['}'] := by unfold mem2; decide

theorem mem2_nlsep : mem2 [Char.ofNat 10] := by unfold mem2; decide

mutual

theorem ser_node_bc : ∀ (n : PdxNode) (lvl : Nat), cleanNode n = true →
    ∀ out, serialize_node n lvl = some out → bcOut out
  | .mk t name value children comment is_comm raw ind, lvl, h, out, hout => by
    obtain ⟨hic, hcm, hnm, hvl, hrw, hch⟩ :=
      cleanNode_parts t name value children comment is_comm raw ind h
    subst hcm
    cases t
    case root =>
      simp only [serialize_node] at hout
      exact Option.noConfusion hout
    case emptyLine =>
      simp only [serialize_node] at hout
      injection hout with h1
      subst h1
      exact bcOut_nil
    case commentN =>
      simp only [serialize_node] at hout
      split at hout
      · injection hout with h1
        subst h1
        have hf := cleanStr_facts raw hrw
        refine ⟨?_, fun c hc => hf.2.2 c (mem_rstripCRLF c raw hc)⟩
        rw [List.count_eq_zero.mpr (fun hm => List.count_eq_zero.mp hf.1 (mem_rstripCRLF _ raw hm)),
          List.count_eq_zero.mpr (fun hm => List.count_eq_zero.mp hf.2.1 (mem_rstripCRLF _ raw hm))]
      · injection hout with h1
        subst h1
        exact bcOut_append _ _ (bcOut_tabs lvl) (bcOut_of_clean value hvl)
    case propertyN =>
      simp only [serialize_node] at hout
      rw [if_neg (fun hk => hk rfl), List.append_nil] at hout
      injection hout with h1
      subst h1
      exact bcOut_append _ _ (bcOut_append _ _
        (bcOut_append _ _ (bcOut_tabs lvl) (bcOut_of_clean name hnm)) bcOut_eqsep)
        (bcOut_of_clean value hvl)
    case listItem =>
      simp only [serialize_node] at hout
      rw [if_neg (fun hk => hk rfl), List.append_nil] at hout
      injection hout with h1
      subst h1
      exact bcOut_append _ _ (bcOut_tabs lvl) (bcOut_of_clean value hvl)
    case blockN =>
      simp only [serialize_node] at hout
      rw [hic, if_neg Bool.false_ne_true] at hout
      rw [show (if ([] : Str) ≠ [] then ' ' :: ([] : Str) else ([] : Str)) = [] from
        if_neg (fun hk => hk rfl)] at hout
      rw [List.append_nil] at hout
      have hhm : mem2 (tabs lvl ++ name ++ st " = " ++ ['{']) :=
        mem2_append _ _ (mem2_append _ _ (mem2_append _ _ (bcOut_tabs lvl).2
          (cleanStr_facts name hnm).2.2) bcOut_eqsep.2) mem2_obrace
      split at hout
      · injection hout with h1
        subst h1
        refine ⟨?_, mem2_append _ _ hhm mem2_closer⟩
        simp only [List.count_append]
        rw [tabs_count '{' lvl (by decide), tabs_count '}' lvl (by decide),
          (cleanStr_facts name hnm).1, (cleanStr_facts name hnm).2.1]
        decide
      · split at hout
        · next hinl =>
            injection hout with h1
            subst h1
            have ih := ser_inlineF_bc children hch
            rw [show ∀ (l : Str), ' ' :: l = [' '] ++ l from fun _ => rfl]
            refine ⟨?_, ?_⟩
            · simp only [List.count_append, joinSp]
              rw [joinSep_count [' '] '{' (by decide), joinSep_count [' '] '}' (by decide),
                tabs_count '{' lvl (by decide), tabs_count '}' lvl (by decide),
                (cleanStr_facts name hnm).1, (cleanStr_facts name hnm).2.1,
                sumCount_balanced (inlineForest children) (fun l hl => (ih l hl).1)]
              simp only [show List.count '{' (st " = ") = 0 from rfl,
                show List.count '}' (st " = ") = 0 from rfl,
                show List.count '{' (['{'] : Str) = 1 from rfl,
                show List.count '}' (['{'] : Str) = 0 from rfl,
                show List.count '{' ([' '] : Str) = 0 from rfl,
                show List.count '}' ([' '] : Str) = 0 from rfl,
                show List.count '{' (['}'] : Str) = 0 from rfl,
                show List.count '}' (['}'] : Str) = 1 from rfl,
                show List.count '{' (' ' :: ['}'] : Str) = 0 from rfl,
                show List.count '}' (' ' :: ['}'] : Str) = 1 from rfl]
              omega
            · refine mem2_append _ _ (mem2_append _ _ hhm
                (mem2_append _ _ mem2_sp ?_)) (mem2_append _ _ mem2_sp mem2_cbrace)
              simp only [joinSp]
              exact mem2_joinSep [' '] (inlineForest children) mem2_sp
                (fun l hl => (ih l hl).2)
        · injection hout with h1
          subst h1
          have ih := ser_forest_bc children (lvl + 1) hch
          refine ⟨?_, ?_⟩
          · simp only [joinNL]
            rw [joinSep_count _ '{' (by decide), joinSep_count _ '}' (by decide)]
            rw [sumCount_append, sumCount_append, sumCount_append, sumCount_append]
            simp only [sumCount]
            rw [sumCount_balanced _ (fun l hl => (ih l hl).1)]
            simp only [List.count_append]
            rw [tabs_count '{' lvl (by decide), tabs_count '}' lvl (by decide),
              (cleanStr_facts name hnm).1, (cleanStr_facts name hnm).2.1]
            simp only [show List.count '{' (st " = ") = 0 from rfl,
              show List.count '}' (st " = ") = 0 from rfl,
              show List.count '{' (['{'] : Str) = 1 from rfl,
              show List.count '}' (['{'] : Str) = 0 from rfl,
              show List.count '{' (['}'] : Str) = 0 from rfl,
              show List.count '}' (['}'] : Str) = 1 from rfl,
              List.count_nil]
            omega
          · simp only [joinNL]
            refine mem2_joinSep _ _ mem2_nlsep ?_
            intro l hl
            rcases List.mem_append.mp hl with hl | hl
            · rcases List.mem_append.mp hl with hl | hl
              · rcases List.mem_cons.mp hl with rfl | hl
                · exact hhm
                · simp at hl
              · exact (ih l hl).2
            · rcases List.mem_cons.mp hl with rfl | hl
              · exact mem2_append _ _ (bcOut_tabs lvl).2 mem2_cbrace
              · simp at hl

theorem ser_forest_bc : ∀ (f : PdxForest) (lvl : Nat), cleanForest f = true →
    ∀ out ∈ serializeForestSome f lvl, bcOut out
  | .nil, lvl, _ => by
    intro out hout
    simp [serializeForestSome] at hout
  | .cons n t, lvl, h => by
    obtain ⟨h1, h2⟩ := cleanForest_parts n t h
    intro out hout
    simp only [serializeForestSome] at hout
    rcases List.mem_append.mp hout with hout | hout
    · rcases hs : serialize_node n lvl with _ | s
      · rw [hs] at hout
        simp at hout
      · rw [hs] at hout
        have h3 : out = s := by simpa using hout
        subst h3
        exact ser_node_bc n lvl h1 out hs
    · exact ser_forest_bc t lvl h2 out hout

theorem ser_inlineF_bc : ∀ (f : PdxForest), cleanForest f = true →
    ∀ out ∈ inlineForest f, bcOut out
  | .nil, _ => by
    intro out hout
    simp [inlineForest] at hout
  | .cons n t, h => by
    obtain ⟨h1, h2⟩ := cleanForest_parts n t h
    intro out hout
    simp only [inlineForest] at hout
    rcases List.mem_append.mp hout with hout | hout
    · split at hout
      · simp at hout
      · have h3 : out = inline_child n := by simpa using hout
        subst h3
        exact ser_inline_child_bc n h1
    · exact ser_inlineF_bc t h2 out hout

theorem ser_inline_child_bc : ∀ (n : PdxNode), cleanNode n = true → bcOut (inline_child n)
  | .mk t name value children comment is_comm raw ind, h => by
    obtain ⟨hic, hcm, hnm, hvl, hrw, hch⟩ :=
      cleanNode_parts t name value children comment is_comm raw ind h
    cases t
    case root => exact bcOut_nil
    case emptyLine => exact bcOut_nil
    case commentN => exact bcOut_nil
    case propertyN =>
      simp only [inline_child]
      exact bcOut_append _ _ (bcOut_append _ _ (bcOut_of_clean name hnm) bcOut_eqsep)
        (bcOut_of_clean value hvl)
    case listItem =>
      simp only [inline_child]
      exact bcOut_of_clean value hvl
    case blockN =>
      simp only [inline_child]
      split
      · refine ⟨?_, mem2_append _ _ (mem2_append _ _ (cleanStr_facts name hnm).2.2
          bcOut_eqsep.2) (by unfold mem2; decide)⟩
        simp only [List.count_append]
        rw [(cleanStr_facts name hnm).1, (cleanStr_facts name hnm).2.1]
        decide
      · have ih := ser_inlineF_bc children hch
        rw [show ∀ (l : Str), '{' :: ' ' :: l = ['{', ' '] ++ l from fun _ => rfl]
        refine ⟨?_, ?_⟩
        · simp only [List.count_append, joinSp]
          rw [joinSep_count [' '] '{' (by decide), joinSep_count [' '] '}' (by decide),
            (cleanStr_facts name hnm).1, (cleanStr_facts name hnm).2.1,
            sumCount_balanced (inlineForest children) (fun l hl => (ih l hl).1)]
          simp only [show List.count '{' (st " = ") = 0 from rfl,
            show List.count '}' (st " = ") = 0 from rfl,
            show List.count '{' (['{', ' '] : Str) = 1 from rfl,
            show List.count '}' (['{', ' '] : Str) = 0 from rfl,
            show List.count '{' (' ' :: ['}'] : Str) = 0 from rfl,
            show List.count '}' (' ' :: ['}'] : Str) = 1 from rfl]
          omega
        · refine mem2_append _ _ (mem2_append _ _
            (mem2_append _ _ (cleanStr_facts name hnm).2.2 bcOut_eqsep.2)
            (mem2_append _ _ mem2_obracesp ?_)) mem2_closer
          simp only [joinSp]
          exact mem2_joinSep [' '] (inlineForest children) mem2_sp
            (fun l hl => (ih l hl).2)

end

/-- C4 amended: the unrestricted claim is false (a Comment node echoes a stray
brace verbatim and an inline trailing comment swallows the closing brace), but
for every tree whose nodes are uncommented, comment-free and whose payload
fields contain no braces, hashes or quotes, PdxSerializer.serialize emits text
whose comment-aware brace counts are equal, so the validator's brace check
passes. -/

theorem C4_serializer_balance_amended (n : PdxNode) (lvl : Nat)
    (h : cleanForest n.children = true) :
    validate_braces (serialize n lvl) = true := by
  have houts := ser_forest_bc n.children lvl h
  have hm : ∀ c ∈ serialize n lvl, c ≠ '#' ∧ c ≠ '"' := by
    simp only [serialize, joinNL]
    exact mem2_joinSep _ _ mem2_nlsep (fun l hl => (houts l hl).2)
  have hcb := count_braces_eq (serialize n lvl) hm
  have hbal : (serialize n lvl).count '{' = (serialize n lvl).count '}' := by
    simp only [serialize, joinNL]
    rw [joinSep_count _ '{' (by decide), joinSep_count _ '}' (by decide)]
    exact sumCount_balanced _ (fun l hl => (houts l hl).1)
  rw [validate_braces, hcb]
  simp [hbal]

def egC4 : PdxNode :=
  .mk .root (st "__root__") []
    (.cons (.mk .blockN (st "a") []
      (.cons (.mk .propertyN (st "b") (st "1") .nil [] false [] []) .nil) [] false [] [])
      .nil) [] false [] []

theorem C4_serializer_balance_amended_witness :
    cleanForest egC4.children = true ∧ validate_braces (serialize egC4 0) = true :=
  ⟨by decide, C4_serializer_balance_amended egC4 0 (by decide)⟩
